import Mathlib

/-!
# Verification of the adk-artifact versioned blob store

A shallow embedding of the two backend adapters of the repository
(`fsartifact/service.go`, the local-filesystem backend, and
`s3artifact/service.go`, the object-store backend) together with proofs
about the shared addressing/versioning contract.

Modelling conventions:

* Go byte slices are modelled as `List Nat` (`Bytes`); the Go
  `string ↔ []byte` view is modelled by the injective code-point encoding
  `encodeStr` / `decodeStr`.
* File-system paths and object keys are sequences of path segments
  (`List String`); the rendered string forms are recovered for the
  address-scheme claims: `fmt.Sprintf` with `/` separators is the plain
  join `joinSegs`, while `filepath.Join` additionally performs its `Clean`
  step, modelled by `cleanSegs` at the level of path elements (faithful on
  separator-free arguments, which is the domain of those claims).
* `fmt.Sprintf "%d"` is modelled by `intStr`, and `strconv.ParseInt` by
  `parseInt?` (sign handling and decimal digits; the int64 overflow bound
  of `ParseInt` is not modelled, it is unreachable for stored names).
* Blocking I/O is modelled by explicit state passing; injected faults
  (a failing `os.WriteFile`, a failing directory read or prefix listing)
  are carried by an environment value, empty in the fault-free runs.
-/

/-! ## Decimal rendering and parsing -/

/-- The character of a decimal digit, as produced by `fmt "%d"`. -/
def digitChar (n : Nat) : Char := Char.ofNat (48 + n)

/-- Fuel-bounded decimal digit expansion (structural recursion, so the
kernel can evaluate it on concrete inputs; the fuel `n + 1` always
suffices). -/
def natDigitsF : Nat → Nat → List Char
  | 0, _ => []
  | fuel + 1, n =>
    if n < 10 then [digitChar n] else natDigitsF fuel (n / 10) ++ [digitChar (n % 10)]

/-- The decimal digits of a natural number, most significant first. -/
def natDigits (n : Nat) : List Char := natDigitsF (n + 1) n

/-- Decimal rendering of a natural number. -/
def natStr (n : Nat) : String := ⟨natDigits n⟩

/-- Models `fmt.Sprintf "%d"` on a Go `int64`. -/
def intStr (v : Int) : String :=
  if v < 0 then ⟨'-' :: natDigits (-v).toNat⟩ else natStr v.toNat

/-- The numeric value of a decimal digit character, if it is one. -/
def digitVal? (c : Char) : Option Nat :=
  if 48 ≤ c.toNat ∧ c.toNat ≤ 57 then some (c.toNat - 48) else none

/-- Accumulating decimal parser over a digit run; fails on a non-digit. -/
def parseNatFrom (acc : Nat) : List Char → Option Nat
  | [] => some acc
  | c :: cs =>
    match digitVal? c with
    | some d => parseNatFrom (10 * acc + d) cs
    | none => none

/-- Parses a non-empty all-digit run. -/
def parseNatDigits : List Char → Option Nat
  | [] => none
  | c :: cs => parseNatFrom 0 (c :: cs)

/-- Sign handling of `strconv.ParseInt` over the character list. -/
def parseIntChars : List Char → Option Int
  | [] => none
  | c :: cs =>
    if c = '-' then (parseNatDigits cs).map (fun n => -(n : Int))
    else (parseNatDigits (c :: cs)).map (fun n => (n : Int))

/-- Models `strconv.ParseInt(s, 10, 64)` (sign plus decimal digits). -/
def parseInt? (s : String) : Option Int := parseIntChars s.data

theorem natDigitsF_congr : ∀ (f₁ : Nat) {f₂ n : Nat}, n < f₁ → n < f₂ →
    natDigitsF f₁ n = natDigitsF f₂ n := by
  intro f₁
  induction f₁ with
  | zero => intro f₂ n h1 _; omega
  | succ f ih =>
    intro f₂ n h1 h2
    cases f₂ with
    | zero => omega
    | succ g =>
      rw [natDigitsF, natDigitsF]
      by_cases h : n < 10
      · rw [if_pos h, if_pos h]
      · rw [if_neg h, if_neg h]
        have hlt : n / 10 < n := Nat.div_lt_self (by omega) (by omega)
        congr 1
        exact ih (by omega) (by omega)

theorem natDigits_eq (n : Nat) : natDigits n =
    if n < 10 then [digitChar n] else natDigits (n / 10) ++ [digitChar (n % 10)] := by
  rw [natDigits, natDigitsF]
  by_cases h : n < 10
  · rw [if_pos h, if_pos h]
  · rw [if_neg h, if_neg h]
    congr 1
    exact natDigitsF_congr n (Nat.div_lt_self (by omega) (by omega)) (Nat.lt_succ_self _)

theorem digitChar_toNat {d : Nat} (h : d < 10) : (digitChar d).toNat = 48 + d := by
  interval_cases d <;> decide

theorem digitVal?_digitChar {d : Nat} (h : d < 10) : digitVal? (digitChar d) = some d := by
  interval_cases d <;> decide

theorem natDigits_ne_nil (n : Nat) : natDigits n ≠ [] := by
  rw [natDigits_eq]
  split <;> simp

theorem mem_natDigits_isDigit {n : Nat} {c : Char} (h : c ∈ natDigits n) :
    48 ≤ c.toNat ∧ c.toNat ≤ 57 := by
  induction n using Nat.strong_induction_on with
  | _ n ih =>
    rw [natDigits_eq] at h
    split at h
    · simp at h
      subst h
      have := digitChar_toNat (by omega : n < 10)
      omega
    · rw [List.mem_append] at h
      rcases h with h | h
      · exact ih (n / 10) (Nat.div_lt_self (by omega) (by omega)) h
      · simp at h
        subst h
        have := digitChar_toNat (Nat.mod_lt n (by omega) : n % 10 < 10)
        omega

theorem parseNatFrom_append (acc : Nat) (l₁ l₂ : List Char) :
    parseNatFrom acc (l₁ ++ l₂) =
      (parseNatFrom acc l₁).bind (fun m => parseNatFrom m l₂) := by
  induction l₁ generalizing acc with
  | nil => simp [parseNatFrom]
  | cons c cs ih =>
    simp only [List.cons_append, parseNatFrom]
    cases digitVal? c with
    | none => simp
    | some d => simp [ih]

theorem parseNatFrom_natDigits (n : Nat) :
    ∀ acc, parseNatFrom acc (natDigits n) = some (acc * 10 ^ (natDigits n).length + n) := by
  induction n using Nat.strong_induction_on with
  | _ n ih =>
    intro acc
    rw [natDigits_eq]
    split
    · simp [parseNatFrom, digitVal?_digitChar (by omega : n < 10)]
      omega
    · rw [parseNatFrom_append, ih (n / 10) (Nat.div_lt_self (by omega) (by omega)) acc]
      simp only [parseNatFrom,
        digitVal?_digitChar (Nat.mod_lt n (by omega) : n % 10 < 10),
        List.length_append, List.length_cons, List.length_nil]
      generalize (natDigits (n / 10)).length = k
      rw [pow_succ]
      have hrw : acc * (10 ^ k * 10) = acc * 10 ^ k * 10 := by ring
      rw [hrw]
      simp only [Option.some_bind, Option.some.injEq]
      generalize acc * 10 ^ k = q
      omega

theorem parseNatDigits_natDigits (n : Nat) : parseNatDigits (natDigits n) = some n := by
  have h := parseNatFrom_natDigits n 0
  have hne := natDigits_ne_nil n
  cases hd : natDigits n with
  | nil => exact absurd hd hne
  | cons c cs =>
    rw [hd] at h
    simpa [parseNatDigits] using h

theorem parseInt?_intStr (v : Int) : parseInt? (intStr v) = some v := by
  by_cases h : v < 0
  · have h1 : (intStr v).data = '-' :: natDigits (-v).toNat := by
      simp [intStr, h]
    rw [parseInt?, h1]
    simp [parseIntChars, parseNatDigits_natDigits]
    omega
  · have h1 : (intStr v).data = natDigits v.toNat := by
      simp [intStr, h, natStr]
    rw [parseInt?, h1]
    have hd : ∀ c ∈ natDigits v.toNat, c ≠ '-' := by
      intro c hc
      have hdig := mem_natDigits_isDigit hc
      intro hcontra
      subst hcontra
      exact absurd hdig (by decide)
    cases hd2 : natDigits v.toNat with
    | nil => exact absurd hd2 (natDigits_ne_nil _)
    | cons c cs =>
      have hcn : c ≠ '-' := hd c (by rw [hd2]; exact List.mem_cons_self c cs)
      simp only [parseIntChars, if_neg hcn]
      rw [← hd2, parseNatDigits_natDigits]
      simp
      omega

theorem intStr_injective : Function.Injective intStr := by
  intro a b h
  have ha := parseInt?_intStr a
  have hb := parseInt?_intStr b
  rw [h, hb] at ha
  exact (Option.some.injEq _ _).mp ha.symm

/-! ## Byte strings and the `.meta` suffix -/

/-- Go byte slices. -/
abbrev Bytes := List Nat

/-- The byte view of a Go string (injective code-point encoding). -/
def encodeStr (s : String) : Bytes := s.data.map Char.toNat

/-- The string view of Go bytes, inverse of `encodeStr` on its image. -/
def decodeStr (b : Bytes) : String := ⟨b.map Char.ofNat⟩

theorem decodeStr_encodeStr (s : String) : decodeStr (encodeStr s) = s := by
  apply String.ext
  simp [decodeStr, encodeStr, List.map_map, Function.comp_def, Char.ofNat_toNat]

/-- Models `strings.HasSuffix(s, ".meta")`, the sidecar-file marker. -/
def sufMeta (s : String) : Bool := ".meta".data.isSuffixOf s.data

/-- Models `strings.HasPrefix`. -/
def hasPre (pre s : String) : Bool := pre.data.isPrefixOf s.data

theorem mem_intStr_le (v : Int) : ∀ c ∈ (intStr v).data, c.toNat ≤ 57 := by
  intro c hc
  by_cases h : v < 0
  · rw [show (intStr v).data = '-' :: natDigits (-v).toNat from by simp [intStr, h]] at hc
    rcases List.mem_cons.mp hc with h1 | h1
    · subst h1; decide
    · exact (mem_natDigits_isDigit h1).2
  · rw [show (intStr v).data = natDigits v.toNat from by simp [intStr, h, natStr]] at hc
    exact (mem_natDigits_isDigit hc).2

theorem sufMeta_intStr (v : Int) : sufMeta (intStr v) = false := by
  rw [sufMeta]
  by_contra hcontra
  have hsuf : ".meta".data <:+ (intStr v).data :=
    List.isSuffixOf_iff_suffix.mp (by revert hcontra; cases h : List.isSuffixOf ".meta".data (intStr v).data <;> simp_all)
  have hmem : 'a' ∈ (intStr v).data := hsuf.subset (by decide)
  have := mem_intStr_le v 'a' hmem
  revert this
  decide

theorem sufMeta_append_meta (s : String) : sufMeta (s ++ ".meta") = true := by
  rw [sufMeta, String.data_append]
  exact List.isSuffixOf_iff_suffix.mpr (List.suffix_append _ _)

namespace Artifact

/-! ## Shared data model -/

/-- Models `genai.Blob` (the `InlineData` payload of a part). -/
structure InlineData where
  mimeType : String
  data : Bytes
deriving DecidableEq, Repr

/-- Models `genai.Part` as used by the adapters: either inline binary data
with a MIME type, or plain text. -/
structure Part where
  inlineData : Option InlineData
  text : String
deriving DecidableEq, Repr

/-- The payload bytes a `Save` writes for a part
(`fsartifact/service.go:111-117`, `s3artifact/service.go:121-147`). -/
def Part.payload (p : Part) : Bytes :=
  match p.inlineData with
  | some d => d.data
  | none => encodeStr p.text

/-- The content type a `Save` records for a part. -/
def Part.contentType (p : Part) : String :=
  match p.inlineData with
  | some d => d.mimeType
  | none => "text/plain"

/-- Modelled from the spec: request validation, performed by the external
`artifact` package (`req.Validate()`), checks field presence; the spec keeps
"request validation detail beyond field presence" out of scope. -/
def validFields (appName userID sessionID fileName : String) : Bool :=
  appName != "" && userID != "" && sessionID != "" && fileName != ""

/-- The classified failures of the error-handling design: a validation
failure, a not-found failure (wrapping `fs.ErrNotExist`), or a storage I/O
failure. -/
inductive Err where
  | validationErr : Err
  | notFoundErr : Err
  | ioErr : Err
deriving DecidableEq, Repr

/-! ## The filesystem backend (`fsartifact/service.go`)

Paths are segment sequences relative to the service's root directory (the
root is a fixed prefix added by `filepath.Join(s.rootDir, ...)` and is
dropped here; the rendered string form is treated with the address-scheme
claims).  The store state is the finite map of regular files plus the set
of existing directories; injected faults model failing `os.WriteFile`,
`os.ReadFile` and `os.ReadDir` calls. -/

/-- A filesystem path, as its list of segments below the root. -/
abbrev Path := List String

/-- The filesystem state: regular files with contents, and directories. -/
structure FState where
  files : List (Path × Bytes)
  dirs : List Path
deriving DecidableEq, Repr

/-- Injected I/O faults for a run of the filesystem backend. -/
structure FsEnv where
  writeFails : List Path
  readFails : List Path
  readDirFails : List Path
deriving DecidableEq, Repr

/-- A fault-free run. -/
def noFsFail : FsEnv := ⟨[], [], []⟩

/-- File lookup in the store. -/
def lookupF : List (Path × Bytes) → Path → Option Bytes
  | [], _ => none
  | (q, d) :: rest, p => if q = p then some d else lookupF rest p

/-- Removal of one file entry. -/
def removeF (fs : List (Path × Bytes)) (p : Path) : List (Path × Bytes) :=
  fs.filter (fun e => e.1 ≠ p)

/-- Models `os.MkdirAll`: creates the directory and all its ancestors. -/
def mkdirAll (st : FState) (p : Path) : FState :=
  { st with dirs := p.inits ++ st.dirs }

/-- Models `os.WriteFile`: creates or truncates the named file. -/
def writeFile (env : FsEnv) (st : FState) (p : Path) (d : Bytes) : Except Err FState :=
  if p ∈ env.writeFails then .error .ioErr
  else .ok { st with files := (p, d) :: removeF st.files p }

/-- Models `os.ReadFile`: not-found on a missing file, an I/O failure on an
injected fault. -/
def readFile (env : FsEnv) (st : FState) (p : Path) : Except Err Bytes :=
  match lookupF st.files p with
  | none => .error .notFoundErr
  | some d => if p ∈ env.readFails then .error .ioErr else .ok d

/-- Models `os.Remove` on a regular file: reports not-found on a missing
file, otherwise deletes it. -/
def removeFile (st : FState) (p : Path) : FState × Option Err :=
  match lookupF st.files p with
  | none => (st, some .notFoundErr)
  | some _ => ({ st with files := removeF st.files p }, none)

/-- Models `os.RemoveAll`: removes the directory tree rooted at `dir`;
missing targets are not an error. -/
def removeAllF (st : FState) (dir : Path) : FState :=
  { files := st.files.filter (fun e => ¬ dir <+: e.1),
    dirs := st.dirs.filter (fun d => ¬ dir <+: d) }

/-- The entry name of `p` when `p` is an immediate child of `dir`. -/
def childName (dir p : Path) : Option String :=
  if dir <+: p then
    match p.drop dir.length with
    | [n] => some n
    | _ => none
  else none

/-- Models `os.ReadDir`: fails with not-found on a missing directory and
with an I/O failure on an injected fault; otherwise returns the entries
(name, isDir).  `os.ReadDir` sorts entries by name; no operation of the
service depends on entry order (version lists are re-sorted and listings
are deduplicated into sets), so the model keeps store order. -/
def readDir (env : FsEnv) (st : FState) (dir : Path) :
    Except Err (List (String × Bool)) :=
  if dir ∈ env.readDirFails then .error .ioErr
  else if dir ∈ st.dirs then
    .ok ((st.files.filterMap (fun e => (childName dir e.1).map (fun n => (n, false)))) ++
      ((st.dirs.filterMap (childName dir)).dedup.map (fun n => (n, true))))
  else .error .notFoundErr

/-- Models `fileHasUserNamespace` of both backends. -/
def fileHasUserNamespace (filename : String) : Bool := hasPre "user:" filename

/-- Models `fsService.buildDir`: the per-artifact container directory. -/
def buildDir (appName userID sessionID fileName : String) : Path :=
  if fileHasUserNamespace fileName then [appName, userID, "user", fileName]
  else [appName, userID, sessionID, fileName]

/-- Models `fsService.buildPath`: the payload file of one version (equal to
`buildDir` extended by the `%d`-rendered version, as in the source). -/
def buildPath (appName userID sessionID fileName : String) (version : Int) : Path :=
  buildDir appName userID sessionID fileName ++ [intStr version]

/-- The sidecar path: Go appends `".meta"` to the rendered path string,
which appends it to the final segment. -/
def buildMetaPath (appName userID sessionID fileName : String) (version : Int) : Path :=
  buildDir appName userID sessionID fileName ++ [intStr version ++ ".meta"]

/-- Models `slices.Max` (the call sites guard non-emptiness; Go panics on
an empty slice, the model returns `0` there). -/
def slicesMax : List Int → Int
  | [] => 0
  | x :: xs => xs.foldl max x

/-- The body of the `Versions` entry loop of the filesystem backend: skip
subdirectories and `.meta` sidecars, parse the rest as a version number,
skipping unparsable names. -/
def verOfEntry (e : String × Bool) : Option Int :=
  if e.2 then none
  else if sufMeta e.1 then none
  else parseInt? e.1

/-- Models `fsService.Versions` (`fsartifact/service.go:236-274`). -/
def fsVersions (env : FsEnv) (st : FState)
    (appName userID sessionID fileName : String) : Except Err (List Int) :=
  if ¬ validFields appName userID sessionID fileName then .error .validationErr
  else
    match readDir env st (buildDir appName userID sessionID fileName) with
    | .error e => .error e
    | .ok entries =>
      let versions := entries.filterMap verOfEntry
      if versions = [] then .error .notFoundErr
      else .ok (List.insertionSort (· ≤ ·) versions)

/-- Models `fsService.Save` (`fsartifact/service.go:83-132`): explicit
positive versions bypass the allocator; otherwise the successor of the
maximal existing version (1 when enumeration fails or finds nothing) is
assigned; the payload is written, then the sidecar, with best-effort
payload cleanup when the sidecar write fails. -/
def fsSave (env : FsEnv) (st : FState)
    (appName userID sessionID fileName : String) (part : Part) (version : Int) :
    FState × Except Err Int :=
  if ¬ validFields appName userID sessionID fileName then (st, .error .validationErr)
  else
    let nextVersion : Int :=
      if version > 0 then version
      else
        match fsVersions env st appName userID sessionID fileName with
        | .ok vs => if vs ≠ [] then slicesMax vs + 1 else 1
        | .error _ => 1
    let dir := buildDir appName userID sessionID fileName
    let st1 := mkdirAll st dir
    match writeFile env st1 (dir ++ [intStr nextVersion]) part.payload with
    | .error e => (st1, .error e)
    | .ok st2 =>
      match writeFile env st2 (dir ++ [intStr nextVersion ++ ".meta"])
          (encodeStr part.contentType) with
      | .error e => ((removeFile st2 (dir ++ [intStr nextVersion])).1, .error e)
      | .ok st3 => (st3, .ok nextVersion)

/-- Models `fsService.Load` (`fsartifact/service.go:135-173`): version 0
resolves to the maximal existing version; the sidecar is read for the
content type, defaulting to `text/plain` on any sidecar read failure. -/
def fsLoad (env : FsEnv) (st : FState)
    (appName userID sessionID fileName : String) (version : Int) :
    Except Err (Bytes × String) :=
  if ¬ validFields appName userID sessionID fileName then .error .validationErr
  else
    let resolved : Except Err Int :=
      if version = 0 then
        match fsVersions env st appName userID sessionID fileName with
        | .error e => .error e
        | .ok vs => .ok (slicesMax vs)
      else .ok version
    match resolved with
    | .error e => .error e
    | .ok v =>
      match readFile env st (buildPath appName userID sessionID fileName v) with
      | .error e => .error e
      | .ok data =>
        let ct :=
          match readFile env st (buildMetaPath appName userID sessionID fileName v) with
          | .ok md => decodeStr md
          | .error _ => "text/plain"
        .ok (data, ct)

/-- Models `fsService.Delete` (`fsartifact/service.go:176-201`): an explicit
version removes its payload file (sidecar best effort, a missing payload is
not an error); version 0 removes the whole artifact directory. -/
def fsDelete (_env : FsEnv) (st : FState)
    (appName userID sessionID fileName : String) (version : Int) :
    FState × Option Err :=
  if ¬ validFields appName userID sessionID fileName then (st, some .validationErr)
  else if version ≠ 0 then
    let r1 := removeFile st (buildPath appName userID sessionID fileName version)
    let st2 := (removeFile r1.1 (buildMetaPath appName userID sessionID fileName version)).1
    match r1.2 with
    | some e => if e = .notFoundErr then (st2, none) else (st2, some .ioErr)
    | none => (st2, none)
  else
    (removeAllF st (buildDir appName userID sessionID fileName), none)

/-! ## The object-store backend (`s3artifact/service.go`)

Object keys are `/`-joined segment strings, modelled as segment sequences;
the content type is carried as object metadata.  `gocloud.dev/blob` listing
returns keys in lexicographic key order (S3 `ListObjectsV2` returns keys in
UTF-8 binary order), modelled by sorting with `keyLeB`.  The bounded
parallel deletion fan-out of `Delete` is collapsed to a sequential fold:
each unit of work removes one independent key, so the final state agrees
with every interleaving, and with no per-key fault injected the error group
reports success. -/

/-- An object key, as its list of `/`-separated segments. -/
abbrev Key := List String

/-- A stored object: payload plus its content-type metadata. -/
structure SObj where
  data : Bytes
  contentType : String
deriving DecidableEq, Repr

/-- The bucket state. -/
abbrev Bucket := List (Key × SObj)

/-- Injected faults: key prefixes whose listing iteration fails. -/
structure S3Env where
  listFails : List Key
deriving DecidableEq, Repr

/-- A fault-free run. -/
def noS3Fail : S3Env := ⟨[]⟩

/-- Byte-lexicographic comparison of strings (UTF-8 binary order restricted
to the code-point order; they agree on ASCII keys). -/
def charsLt : List Char → List Char → Bool
  | [], [] => false
  | [], _ :: _ => true
  | _ :: _, [] => false
  | a :: as, b :: bs => if a < b then true else if b < a then false else charsLt as bs

/-- String comparison derived from `charsLt`. -/
def strLtB (s t : String) : Bool := charsLt s.data t.data

/-- Lexicographic order on segment keys; for keys sharing a common prefix
this agrees with the byte order of the joined key strings. -/
def keyLeB : Key → Key → Bool
  | [], _ => true
  | _ :: _, [] => false
  | a :: as, b :: bs => if strLtB a b then true else if strLtB b a then false else keyLeB as bs

/-- Object lookup by key. -/
def lookupK : Bucket → Key → Option SObj
  | [], _ => none
  | (q, o) :: rest, k => if q = k then some o else lookupK rest k

/-- Models `s.bucket.List` with a key prefix: the keys below the prefix in
lexicographic order, or the injected iteration failure. -/
def s3List (env : S3Env) (b : Bucket) (p : Key) : Except Err (List Key) :=
  if p ∈ env.listFails then .error .ioErr
  else .ok (List.insertionSort (fun k₁ k₂ => keyLeB k₁ k₂ = true)
    ((b.map (fun e => e.1)).filter (fun k => p.isPrefixOf k)))

/-- Models `buildKeyPrefix`: the per-artifact key prefix (`app/user/"user"/
fileName/` for user-scoped names, `app/user/session/fileName/` otherwise). -/
def buildKeyPre (appName userID sessionID fileName : String) : Key :=
  if fileHasUserNamespace fileName then [appName, userID, "user", fileName]
  else [appName, userID, sessionID, fileName]

/-- Models `buildKey`: the prefix extended by the `%d`-rendered version. -/
def buildKey (appName userID sessionID fileName : String) (version : Int) : Key :=
  buildKeyPre appName userID sessionID fileName ++ [intStr version]

/-- Models the internal `s3Service.versions`
(`s3artifact/service.go:310-344`): lists the artifact prefix and parses the
trailing segment of each key, silently skipping unparsable ones; an empty
result is not an error here.  (The guard `len(segments) < 1` of the source
is unreachable, `strings.Split` never returns an empty slice; `verOfKey`
is the parse step of the loop body.) -/
def verOfKey (k : Key) : Option Int :=
  match k.getLast? with
  | none => none
  | some seg => parseInt? seg

def s3VersionsI (env : S3Env) (b : Bucket)
    (appName userID sessionID fileName : String) : Except Err (List Int) :=
  if ¬ validFields appName userID sessionID fileName then .error .validationErr
  else
    match s3List env b (buildKeyPre appName userID sessionID fileName) with
    | .error e => .error e
    | .ok keys => .ok (keys.filterMap verOfKey)

/-- Models the public `s3Service.Versions`
(`s3artifact/service.go:347-356`): the internal form with an empty result
turned into not-found. -/
def s3Versions (env : S3Env) (b : Bucket)
    (appName userID sessionID fileName : String) : Except Err (List Int) :=
  match s3VersionsI env b appName userID sessionID fileName with
  | .error e => .error e
  | .ok vs => if vs = [] then .error .notFoundErr else .ok vs

/-- Models `s3Service.Save` (`s3artifact/service.go:97-150`): the next
version is always computed from a fresh listing (the request's explicit
version field `_version` is never consulted), then the object is written
under the computed key with the part's content type. -/
def s3Save (env : S3Env) (b : Bucket)
    (appName userID sessionID fileName : String) (part : Part) (_version : Int) :
    Bucket × Except Err Int :=
  if ¬ validFields appName userID sessionID fileName then (b, .error .validationErr)
  else
    match s3VersionsI env b appName userID sessionID fileName with
    | .error e => (b, .error e)
    | .ok vs =>
      let nextVersion : Int := if vs.length > 0 then slicesMax vs + 1 else 1
      let key := buildKey appName userID sessionID fileName nextVersion
      ((key, ⟨part.payload, part.contentType⟩) :: b.filter (fun e => e.1 ≠ key),
        .ok nextVersion)

/-- Models `s3Service.Load` (`s3artifact/service.go:204-250`): version 0
resolves to the maximal listed version (not-found when none); the object's
stored content type is returned directly. -/
def s3Load (env : S3Env) (b : Bucket)
    (appName userID sessionID fileName : String) (version : Int) :
    Except Err (Bytes × String) :=
  if ¬ validFields appName userID sessionID fileName then .error .validationErr
  else
    let resolved : Except Err Int :=
      if version = 0 then
        match s3VersionsI env b appName userID sessionID fileName with
        | .error e => .error e
        | .ok vs => if vs = [] then .error .notFoundErr else .ok (slicesMax vs)
      else .ok version
    match resolved with
    | .error e => .error e
    | .ok v =>
      match lookupK b (buildKey appName userID sessionID fileName v) with
      | none => .error .notFoundErr
      | some obj => .ok (obj.data, obj.contentType)

/-- Models `s3Service.Delete` (`s3artifact/service.go:153-201`): an explicit
version deletes its single key (not-found from the store is success, so
removing an absent key is a no-op); version 0 lists all versions and
deletes every resolved key. -/
def s3Delete (env : S3Env) (b : Bucket)
    (appName userID sessionID fileName : String) (version : Int) :
    Bucket × Option Err :=
  if ¬ validFields appName userID sessionID fileName then (b, some .validationErr)
  else if version ≠ 0 then
    let key := buildKey appName userID sessionID fileName version
    (b.filter (fun e => e.1 ≠ key), none)
  else
    match s3VersionsI env b appName userID sessionID fileName with
    | .error e => (b, some e)
    | .ok vs =>
      (vs.foldl
        (fun acc v => acc.filter
          (fun e => e.1 ≠ buildKey appName userID sessionID fileName v)) b,
        none)

/-! ## Reachable artifact states

The claims quantify over "an artifact identity whose stored version set is
S".  The states the service produces for one artifact are captured by
`GoodFs` / `GoodS3`: the canonical per-version files (payload plus sidecar)
or objects, in any store order, next to arbitrary unrelated entries outside
the artifact's container. -/

/-- One stored version of an artifact: number, payload, content type. -/
structure ArtEntry where
  ver : Int
  data : Bytes
  ct : String
deriving DecidableEq, Repr

/-- The version numbers of a list of stored entries. -/
def vers (es : List ArtEntry) : List Int := es.map (fun e => e.ver)

/-- The files the filesystem backend keeps for an artifact: one payload
file named `%d` and one `.meta` sidecar per stored version. -/
def artFiles (dir : Path) : List ArtEntry → List (Path × Bytes)
  | [] => []
  | e :: rest =>
    (dir ++ [intStr e.ver], e.data) ::
      (dir ++ [intStr e.ver ++ ".meta"], encodeStr e.ct) :: artFiles dir rest

/-- The objects the object-store backend keeps for an artifact. -/
def artObjs (p : Key) : List ArtEntry → Bucket
  | [] => []
  | e :: rest => (p ++ [intStr e.ver], ⟨e.data, e.ct⟩) :: artObjs p rest

/-- A filesystem state holding exactly the entries `es` of the artifact
with container `dir`, plus unrelated files outside `dir`; the container
directory exists and has no subdirectories. -/
def GoodFs (dir : Path) (es : List ArtEntry) (extra : List (Path × Bytes))
    (st : FState) : Prop :=
  st.files.Perm (artFiles dir es ++ extra) ∧
  (∀ e ∈ extra, ¬ dir <+: e.1) ∧
  dir ∈ st.dirs ∧
  (∀ d ∈ st.dirs, dir <+: d → d = dir)

/-- A bucket holding exactly the entries `es` of the artifact with key
prefix `p`, plus unrelated objects outside the prefix. -/
def GoodS3 (p : Key) (es : List ArtEntry) (extra : Bucket) (b : Bucket) : Prop :=
  b.Perm (artObjs p es ++ extra) ∧ (∀ e ∈ extra, ¬ p <+: e.1)

/-- A filesystem state in which the artifact with container `dir` does not
exist at all. -/
def NoArtFs (dir : Path) (st : FState) : Prop :=
  (∀ e ∈ st.files, ¬ dir <+: e.1) ∧ dir ∉ st.dirs

/-- A bucket in which the artifact with key prefix `p` does not exist. -/
def NoArtS3 (p : Key) (b : Bucket) : Prop :=
  ∀ e ∈ b, ¬ p <+: e.1

/-! ### Small path and lookup lemmas -/

theorem append_singleton_inj {l : List String} {x y : String}
    (h : l ++ [x] = l ++ [y]) : x = y := by
  have h2 := List.append_cancel_left h
  simpa using h2

theorem intStr_meta_ne (v w : Int) : intStr v ≠ intStr w ++ ".meta" := by
  intro h
  have hmem : 'a' ∈ (intStr v).data := by
    rw [h, String.data_append]
    exact List.mem_append_right _ (by decide)
  have hle := mem_intStr_le v 'a' hmem
  revert hle
  decide

theorem intStr_meta_inj {v w : Int} (h : intStr v ++ ".meta" = intStr w ++ ".meta") :
    v = w := by
  apply intStr_injective
  apply String.ext
  have h2 := congrArg String.data h
  rw [String.data_append, String.data_append] at h2
  exact List.append_cancel_right h2

theorem childName_self_append (dir : Path) (x : String) :
    childName dir (dir ++ [x]) = some x := by
  rw [childName, if_pos (List.prefix_append dir [x])]
  rw [List.drop_left]

theorem childName_outside {dir p : Path} (h : ¬ dir <+: p) :
    childName dir p = none := by
  rw [childName, if_neg h]

theorem childName_self : ∀ dir : Path, childName dir dir = none := by
  intro dir
  rw [childName, if_pos (List.prefix_refl dir)]
  simp

theorem lookupF_eq_of_mem_unique {l : List (Path × Bytes)} {p : Path} {d : Bytes}
    (hmem : (p, d) ∈ l) (huniq : ∀ d', (p, d') ∈ l → d' = d) :
    lookupF l p = some d := by
  induction l with
  | nil => simp at hmem
  | cons hd tl ih =>
    obtain ⟨q, d0⟩ := hd
    rw [lookupF]
    by_cases hq : q = p
    · subst hq
      rw [if_pos rfl]
      exact congrArg some (huniq d0 (List.mem_cons_self _ _))
    · rw [if_neg hq]
      rcases List.mem_cons.mp hmem with h1 | h1
      · exact absurd (congrArg Prod.fst h1).symm hq
      · exact ih h1 (fun d' hd' => huniq d' (List.mem_cons_of_mem _ hd'))

theorem lookupF_eq_none {l : List (Path × Bytes)} {p : Path}
    (h : ∀ e ∈ l, e.1 ≠ p) : lookupF l p = none := by
  induction l with
  | nil => rfl
  | cons hd tl ih =>
    rw [lookupF]
    rw [if_neg (h hd (List.mem_cons_self _ _))]
    exact ih (fun e he => h e (List.mem_cons_of_mem _ he))

theorem lookupK_eq_of_mem_unique {l : Bucket} {p : Key} {o : SObj}
    (hmem : (p, o) ∈ l) (huniq : ∀ o', (p, o') ∈ l → o' = o) :
    lookupK l p = some o := by
  induction l with
  | nil => simp at hmem
  | cons hd tl ih =>
    obtain ⟨q, o0⟩ := hd
    rw [lookupK]
    by_cases hq : q = p
    · subst hq
      rw [if_pos rfl]
      exact congrArg some (huniq o0 (List.mem_cons_self _ _))
    · rw [if_neg hq]
      rcases List.mem_cons.mp hmem with h1 | h1
      · exact absurd (congrArg Prod.fst h1).symm hq
      · exact ih h1 (fun o' ho' => huniq o' (List.mem_cons_of_mem _ ho'))

theorem lookupK_eq_none {l : Bucket} {p : Key}
    (h : ∀ e ∈ l, e.1 ≠ p) : lookupK l p = none := by
  induction l with
  | nil => rfl
  | cons hd tl ih =>
    rw [lookupK]
    rw [if_neg (h hd (List.mem_cons_self _ _))]
    exact ih (fun e he => h e (List.mem_cons_of_mem _ he))

/-! ### `slices.Max` -/

theorem foldl_max_spec (a : Int) (xs : List Int) :
    (xs.foldl max a = a ∨ xs.foldl max a ∈ xs) ∧
      a ≤ xs.foldl max a ∧ ∀ x ∈ xs, x ≤ xs.foldl max a := by
  induction xs generalizing a with
  | nil => simp
  | cons x xs ih =>
    obtain ⟨h1, h2, h3⟩ := ih (max a x)
    rw [List.foldl_cons]
    refine ⟨?_, ?_, ?_⟩
    · rcases h1 with h1 | h1
      · rcases max_choice a x with hm | hm <;> rw [h1, hm]
        · exact Or.inl rfl
        · exact Or.inr (List.mem_cons_self _ _)
      · exact Or.inr (List.mem_cons_of_mem _ h1)
    · exact le_trans (le_max_left a x) h2
    · intro y hy
      rcases List.mem_cons.mp hy with hy | hy
      · subst hy
        exact le_trans (le_max_right a y) h2
      · exact h3 y hy

theorem slicesMax_spec {l : List Int} (h : l ≠ []) :
    slicesMax l ∈ l ∧ ∀ x ∈ l, x ≤ slicesMax l := by
  cases l with
  | nil => exact absurd rfl h
  | cons x xs =>
    obtain ⟨h1, h2, h3⟩ := foldl_max_spec x xs
    rw [slicesMax]
    refine ⟨?_, ?_⟩
    · rcases h1 with h1 | h1
      · rw [h1]; exact List.mem_cons_self _ _
      · exact List.mem_cons_of_mem _ h1
    · intro y hy
      rcases List.mem_cons.mp hy with hy | hy
      · subst hy; exact h2
      · exact h3 y hy

theorem slicesMax_perm {l₁ l₂ : List Int} (h : l₁.Perm l₂) :
    slicesMax l₁ = slicesMax l₂ := by
  by_cases hnil : l₁ = []
  · subst hnil
    rw [← h.nil_eq]
  · have hnil2 : l₂ ≠ [] := fun hc => hnil (by subst hc; exact h.eq_nil)
    obtain ⟨m1, u1⟩ := slicesMax_spec hnil
    obtain ⟨m2, u2⟩ := slicesMax_spec hnil2
    exact le_antisymm (u2 _ (h.mem_iff.mp m1)) (u1 _ (h.mem_iff.mpr m2))

/-! ### Characterizing `Versions` on reachable states -/

theorem insertionSort_le_eq_of_perm {l₁ l₂ : List Int} (h : l₁.Perm l₂) :
    List.insertionSort (· ≤ ·) l₁ = List.insertionSort (· ≤ ·) l₂ :=
  List.eq_of_perm_of_sorted
    (((List.perm_insertionSort _ l₁).trans h).trans (List.perm_insertionSort _ l₂).symm)
    (List.sorted_insertionSort _ l₁) (List.sorted_insertionSort _ l₂)

theorem insertionSort_le_pairwise_lt {l : List Int} (hnd : l.Nodup) :
    (List.insertionSort (· ≤ ·) l).Pairwise (· < ·) := by
  have hle : (List.insertionSort (· ≤ ·) l).Pairwise (· ≤ ·) :=
    List.sorted_insertionSort (· ≤ ·) l
  have hnd2 : (List.insertionSort (· ≤ ·) l).Nodup :=
    (List.perm_insertionSort _ l).nodup_iff.mpr hnd
  exact (hle.and hnd2).imp (fun hd => lt_of_le_of_ne hd.1 hd.2)

theorem verOfEntry_payload (v : Int) : verOfEntry (intStr v, false) = some v := by
  rw [verOfEntry]
  simp [sufMeta_intStr, parseInt?_intStr]

theorem verOfEntry_meta (v : Int) : verOfEntry (intStr v ++ ".meta", false) = none := by
  rw [verOfEntry]
  simp [sufMeta_append_meta]

theorem mem_artFiles_iff {dir : Path} {es : List ArtEntry} {pr : Path × Bytes} :
    pr ∈ artFiles dir es ↔
      ∃ e ∈ es, pr = (dir ++ [intStr e.ver], e.data) ∨
        pr = (dir ++ [intStr e.ver ++ ".meta"], encodeStr e.ct) := by
  induction es with
  | nil => simp [artFiles]
  | cons e rest ih =>
    rw [artFiles]
    simp only [List.mem_cons, ih, List.mem_cons]
    constructor
    · rintro (h | h | ⟨e', he', h⟩)
      · exact ⟨e, Or.inl rfl, Or.inl h⟩
      · exact ⟨e, Or.inl rfl, Or.inr h⟩
      · exact ⟨e', Or.inr he', h⟩
    · rintro ⟨e', he' | he', h⟩
      · subst he'
        rcases h with h | h
        · exact Or.inl h
        · exact Or.inr (Or.inl h)
      · exact Or.inr (Or.inr ⟨e', he', h⟩)

theorem artFiles_prefix {dir : Path} {es : List ArtEntry} :
    ∀ pr ∈ artFiles dir es, dir <+: pr.1 := by
  intro pr hpr
  rcases mem_artFiles_iff.mp hpr with ⟨e, _, h | h⟩ <;>
    · subst h
      exact List.prefix_append _ _

theorem filterMap_child_artFiles (dir : Path) (es : List ArtEntry) :
    ((artFiles dir es).filterMap
        (fun e => (childName dir e.1).map (fun n => (n, false)))).filterMap verOfEntry
      = vers es := by
  induction es with
  | nil => simp [artFiles, vers]
  | cons e rest ih =>
    rw [artFiles]
    simp only [List.filterMap_cons, childName_self_append, Option.map_some',
      verOfEntry_payload, verOfEntry_meta]
    rw [ih]
    rfl

theorem mem_artObjs_iff {p : Key} {es : List ArtEntry} {pr : Key × SObj} :
    pr ∈ artObjs p es ↔
      ∃ e ∈ es, pr = (p ++ [intStr e.ver], ⟨e.data, e.ct⟩) := by
  induction es with
  | nil => simp [artObjs]
  | cons e rest ih =>
    rw [artObjs]
    simp only [List.mem_cons, ih, List.mem_cons]
    constructor
    · rintro (h | ⟨e', he', h⟩)
      · exact ⟨e, Or.inl rfl, h⟩
      · exact ⟨e', Or.inr he', h⟩
    · rintro ⟨e', he' | he', h⟩
      · subst he'
        exact Or.inl h
      · exact Or.inr ⟨e', he', h⟩

theorem artObjs_prefix {p : Key} {es : List ArtEntry} :
    ∀ pr ∈ artObjs p es, p <+: pr.1 := by
  intro pr hpr
  rcases mem_artObjs_iff.mp hpr with ⟨e, _, h⟩
  subst h
  exact List.prefix_append _ _

/-- On a reachable state, the filesystem `Versions` yields the ascending
sort of the stored version numbers, or not-found when none are stored. -/
theorem fsVersions_good {env : FsEnv} {st : FState} {a u s f : String}
    {es : List ArtEntry} {extra : List (Path × Bytes)}
    (hval : validFields a u s f = true)
    (hgood : GoodFs (buildDir a u s f) es extra st)
    (hfault : buildDir a u s f ∉ env.readDirFails) :
    fsVersions env st a u s f =
      if es = [] then .error .notFoundErr
      else .ok (List.insertionSort (· ≤ ·) (vers es)) := by
  obtain ⟨hperm, hextra, hdir, hnosub⟩ := hgood
  rw [fsVersions, if_neg (by simp [hval])]
  rw [readDir, if_neg hfault, if_pos hdir]
  have hdirs : (st.dirs.filterMap (childName (buildDir a u s f))).dedup.map
      (fun n => (n, true)) = ([] : List (String × Bool)) := by
    have hnil : st.dirs.filterMap (childName (buildDir a u s f)) = [] := by
      rw [List.filterMap_eq_nil_iff]
      intro d hd
      by_cases hp : buildDir a u s f <+: d
      · rw [hnosub d hd hp]
        exact childName_self _
      · exact childName_outside hp
    rw [hnil]
    rfl
  rw [hdirs, List.append_nil]
  simp only []
  have hfilesPerm : (st.files.filterMap
      (fun e => (childName (buildDir a u s f) e.1).map (fun n => (n, false)))).filterMap
        verOfEntry |>.Perm (vers es) := by
    have h1 := (hperm.filterMap
      (fun e => (childName (buildDir a u s f) e.1).map (fun n => (n, false)))).filterMap
        verOfEntry
    rw [List.filterMap_append] at h1
    have hextras : extra.filterMap
        (fun e => (childName (buildDir a u s f) e.1).map (fun n => (n, false))) = [] := by
      rw [List.filterMap_eq_nil_iff]
      intro e he
      rw [childName_outside (hextra e he)]
      rfl
    rw [hextras, List.append_nil, filterMap_child_artFiles] at h1
    exact h1
  by_cases hes : es = []
  · subst hes
    have hnil : (st.files.filterMap
        (fun e => (childName (buildDir a u s f) e.1).map (fun n => (n, false)))).filterMap
          verOfEntry = [] := by
      have := hfilesPerm
      rw [vers] at this
      simpa using this.eq_nil
    simp [hnil]
  · have hne : (st.files.filterMap
        (fun e => (childName (buildDir a u s f) e.1).map (fun n => (n, false)))).filterMap
          verOfEntry ≠ [] := by
      intro hc
      apply hes
      have h2 := hfilesPerm.symm
      rw [hc] at h2
      have := h2.eq_nil
      rw [vers] at this
      simpa using this
    rw [if_neg hne, if_neg hes, insertionSort_le_eq_of_perm hfilesPerm]

theorem verOfKey_canonical (p : Key) (v : Int) : verOfKey (p ++ [intStr v]) = some v := by
  rw [verOfKey]
  rw [List.getLast?_concat]
  exact parseInt?_intStr v

theorem filterMap_verOfKey_canonical (p : Key) (es : List ArtEntry) :
    (es.map (fun e => p ++ [intStr e.ver])).filterMap verOfKey = vers es := by
  induction es with
  | nil => rfl
  | cons e rest ih =>
    simp only [List.map_cons, List.filterMap_cons, verOfKey_canonical]
    rw [ih]
    rfl

theorem map_fst_artObjs (p : Key) (es : List ArtEntry) :
    (artObjs p es).map (fun e => e.1) = es.map (fun e => p ++ [intStr e.ver]) := by
  induction es with
  | nil => rfl
  | cons e rest ih =>
    rw [artObjs, List.map_cons, List.map_cons, ih]

/-- On a reachable bucket, the internal `versions` succeeds and yields
exactly the stored version numbers (as a permutation: the listing is
key-sorted, not numerically sorted). -/
theorem s3VersionsI_good {env : S3Env} {b : Bucket} {a u s f : String}
    {es : List ArtEntry} {extra : Bucket}
    (hval : validFields a u s f = true)
    (hgood : GoodS3 (buildKeyPre a u s f) es extra b)
    (hfault : buildKeyPre a u s f ∉ env.listFails) :
    ∃ vs, s3VersionsI env b a u s f = .ok vs ∧ vs.Perm (vers es) := by
  obtain ⟨hperm, hextra⟩ := hgood
  rw [s3VersionsI, if_neg (by simp [hval])]
  rw [s3List, if_neg hfault]
  simp only []
  refine ⟨_, rfl, ?_⟩
  have hkeys : (List.insertionSort (fun k₁ k₂ => keyLeB k₁ k₂ = true)
      ((b.map (fun e => e.1)).filter
        (fun k => (buildKeyPre a u s f).isPrefixOf k))).Perm
        (es.map (fun e => buildKeyPre a u s f ++ [intStr e.ver])) := by
    refine (List.perm_insertionSort _ _).trans ?_
    have h1 := (hperm.map (fun e => e.1)).filter
      (fun k => (buildKeyPre a u s f).isPrefixOf k)
    rw [List.map_append, List.filter_append] at h1
    have h2 : (((artObjs (buildKeyPre a u s f) es).map (fun e => e.1)).filter
        (fun k => (buildKeyPre a u s f).isPrefixOf k))
          = es.map (fun e => buildKeyPre a u s f ++ [intStr e.ver]) := by
      rw [map_fst_artObjs]
      rw [List.filter_eq_self.mpr]
      intro k hk
      rcases List.mem_map.mp hk with ⟨e, _, hke⟩
      subst hke
      exact List.isPrefixOf_iff_prefix.mpr (List.prefix_append _ _)
    have h3 : (extra.map (fun e => e.1)).filter
        (fun k => (buildKeyPre a u s f).isPrefixOf k) = [] := by
      rw [List.filter_eq_nil_iff]
      intro k hk
      rcases List.mem_map.mp hk with ⟨e, he, hke⟩
      subst hke
      simp only [List.isPrefixOf_iff_prefix]
      exact fun hc => hextra e he (by simpa using hc)
    rw [h2, h3, List.append_nil] at h1
    exact h1
  have h4 := hkeys.filterMap verOfKey
  rw [filterMap_verOfKey_canonical] at h4
  exact h4

/-- The public `Versions` on a reachable bucket: not-found when nothing is
stored, otherwise some permutation of the stored version numbers. -/
theorem s3Versions_good {env : S3Env} {b : Bucket} {a u s f : String}
    {es : List ArtEntry} {extra : Bucket}
    (hval : validFields a u s f = true)
    (hgood : GoodS3 (buildKeyPre a u s f) es extra b)
    (hfault : buildKeyPre a u s f ∉ env.listFails) :
    (es = [] → s3Versions env b a u s f = .error .notFoundErr) ∧
      (es ≠ [] → ∃ vs, s3Versions env b a u s f = .ok vs ∧ vs.Perm (vers es)) := by
  obtain ⟨vs, hvs, hvsperm⟩ := s3VersionsI_good hval hgood hfault
  constructor
  · intro hes
    subst hes
    have hnil : vs = [] := by simpa [vers] using hvsperm.eq_nil
    rw [s3Versions, hvs, hnil]
    rfl
  · intro hes
    have hne : vs ≠ [] := by
      intro hc
      apply hes
      subst hc
      have h2 := hvsperm.symm.eq_nil
      rw [vers] at h2
      simpa using h2
    rw [s3Versions, hvs]
    simp only [if_neg hne]
    exact ⟨vs, rfl, hvsperm⟩

/-! ### State updates on reachable states -/

theorem payload_path_inj {dir : Path} {v w : Int}
    (h : dir ++ [intStr v] = dir ++ [intStr w]) : v = w :=
  intStr_injective (append_singleton_inj h)

theorem payload_meta_path_ne (dir : Path) (v w : Int) :
    dir ++ [intStr v] ≠ dir ++ [intStr w ++ ".meta"] := by
  intro h
  exact intStr_meta_ne v w (append_singleton_inj h)

theorem meta_path_inj {dir : Path} {v w : Int}
    (h : dir ++ [intStr v ++ ".meta"] = dir ++ [intStr w ++ ".meta"]) : v = w :=
  intStr_meta_inj (append_singleton_inj h)

theorem vers_filter (es : List ArtEntry) (V : Int) :
    vers (es.filter (fun e => e.ver ≠ V)) = (vers es).filter (fun x => x ≠ V) := by
  rw [vers, vers, List.filter_map]
  rfl

theorem vers_cons (e : ArtEntry) (es : List ArtEntry) :
    vers (e :: es) = e.ver :: vers es := rfl

/-- Removing version `V`'s payload file and sidecar from a reachable file
set removes exactly the stored entries with number `V`. -/
theorem removeF_art (dir : Path) (es : List ArtEntry) (extra : List (Path × Bytes))
    (V : Int) (hex : ∀ e ∈ extra, ¬ dir <+: e.1) :
    removeF (removeF (artFiles dir es ++ extra) (dir ++ [intStr V]))
        (dir ++ [intStr V ++ ".meta"])
      = artFiles dir (es.filter (fun e => e.ver ≠ V)) ++ extra := by
  rw [removeF, removeF, List.filter_append, List.filter_append]
  have hex1 : extra.filter (fun e => e.1 ≠ dir ++ [intStr V]) = extra := by
    rw [List.filter_eq_self]
    intro e he
    simp only [decide_eq_true_eq]
    intro hc
    exact hex e he (by rw [hc]; exact List.prefix_append _ _)
  have hex2 : extra.filter (fun e => e.1 ≠ dir ++ [intStr V ++ ".meta"]) = extra := by
    rw [List.filter_eq_self]
    intro e he
    simp only [decide_eq_true_eq]
    intro hc
    exact hex e he (by rw [hc]; exact List.prefix_append _ _)
  rw [hex1, hex2]
  congr 1
  induction es with
  | nil => rfl
  | cons e rest ih =>
    by_cases hv : e.ver = V
    · subst hv
      have f3 : dir ++ [intStr e.ver ++ ".meta"] ≠ dir ++ [intStr e.ver] :=
        fun h => payload_meta_path_ne dir e.ver e.ver h.symm
      simp only [List.filter_filter] at ih ⊢
      simp [artFiles, List.filter_cons, f3] at ih ⊢
      exact ih
    · have f1 : dir ++ [intStr e.ver] ≠ dir ++ [intStr V] :=
        fun h => hv (payload_path_inj h)
      have f2 : dir ++ [intStr e.ver] ≠ dir ++ [intStr V ++ ".meta"] :=
        payload_meta_path_ne dir e.ver V
      have f3 : dir ++ [intStr e.ver ++ ".meta"] ≠ dir ++ [intStr V] :=
        fun h => payload_meta_path_ne dir V e.ver h.symm
      have f4 : dir ++ [intStr e.ver ++ ".meta"] ≠ dir ++ [intStr V ++ ".meta"] :=
        fun h => hv (meta_path_inj h)
      simp only [List.filter_filter] at ih ⊢
      simp [artFiles, List.filter_cons, f1, f2, f3, f4, hv] at ih ⊢
      exact ih

/-- Removing version `V`'s key from a reachable bucket removes exactly the
stored entries with number `V`. -/
theorem filter_ne_artObjs (p : Key) (es : List ArtEntry) (extra : Bucket) (V : Int)
    (hex : ∀ e ∈ extra, ¬ p <+: e.1) :
    (artObjs p es ++ extra).filter (fun e => e.1 ≠ p ++ [intStr V])
      = artObjs p (es.filter (fun e => e.ver ≠ V)) ++ extra := by
  rw [List.filter_append]
  have hex1 : extra.filter (fun e => e.1 ≠ p ++ [intStr V]) = extra := by
    rw [List.filter_eq_self]
    intro e he
    simp only [decide_eq_true_eq]
    intro hc
    exact hex e he (by rw [hc]; exact List.prefix_append _ _)
  rw [hex1]
  congr 1
  induction es with
  | nil => rfl
  | cons e rest ih =>
    by_cases hv : e.ver = V
    · subst hv
      simp [artObjs, List.filter_cons] at ih ⊢
      exact ih
    · have f1 : p ++ [intStr e.ver] ≠ p ++ [intStr V] :=
        fun h => hv (payload_path_inj h)
      simp [artObjs, List.filter_cons, f1, hv] at ih ⊢
      exact ih

theorem lookupF_eq_none_iff {l : List (Path × Bytes)} {p : Path} :
    lookupF l p = none ↔ ∀ e ∈ l, e.1 ≠ p := by
  constructor
  · intro h e he hc
    induction l with
    | nil => simp at he
    | cons hd tl ih =>
      rw [lookupF] at h
      rcases List.mem_cons.mp he with h1 | h1
      · subst h1
        rw [if_pos hc] at h
        exact Option.noConfusion h
      · by_cases hq : hd.1 = p
        · rw [show hd = (hd.1, hd.2) from rfl, if_pos hq] at h
          exact Option.noConfusion h
        · rw [show hd = (hd.1, hd.2) from rfl, if_neg hq] at h
          exact ih h h1
  · exact lookupF_eq_none

theorem removeF_of_absent {l : List (Path × Bytes)} {p : Path}
    (h : ∀ e ∈ l, e.1 ≠ p) : removeF l p = l := by
  rw [removeF, List.filter_eq_self.mpr]
  intro e he
  simp [h e he]

theorem writeFile_noWriteFails {env : FsEnv} (h : env.writeFails = [])
    (st : FState) (p : Path) (d : Bytes) :
    writeFile env st p d = .ok { st with files := (p, d) :: removeF st.files p } := by
  rw [writeFile, if_neg (by simp [h])]

/-- `os.Remove` leaves the file map as `removeF` of it in all cases, keeps
the directories, and fails only with not-found. -/
theorem removeFile_char (st : FState) (p : Path) :
    (removeFile st p).1.files = removeF st.files p ∧
      (removeFile st p).1.dirs = st.dirs ∧
      ((removeFile st p).2 = none ∨ (removeFile st p).2 = some .notFoundErr) := by
  rw [removeFile]
  cases hl : lookupF st.files p with
  | none =>
    refine ⟨?_, rfl, Or.inr rfl⟩
    rw [removeF_of_absent (lookupF_eq_none_iff.mp hl)]
  | some d => exact ⟨rfl, rfl, Or.inl rfl⟩

/-! ### Effect of the operations on reachable states -/

/-- The version number a filesystem `Save` assigns on a reachable state. -/
def fsNextVersion (es : List ArtEntry) (version : Int) : Int :=
  if version > 0 then version
  else if es = [] then 1 else slicesMax (vers es) + 1

theorem prefix_antisymm {l₁ l₂ : List String} (h1 : l₁ <+: l₂) (h2 : l₂ <+: l₁) :
    l₁ = l₂ :=
  h1.sublist.antisymm h2.sublist

theorem writeFile_noFail (st : FState) (p : Path) (d : Bytes) :
    writeFile noFsFail st p d = .ok { st with files := (p, d) :: removeF st.files p } := by
  rw [writeFile, if_neg (by simp [noFsFail])]

theorem fsSave_good {st : FState} {a u s f : String} {es : List ArtEntry}
    {extra : List (Path × Bytes)} (part : Part) (version : Int)
    (hval : validFields a u s f = true)
    (hgood : GoodFs (buildDir a u s f) es extra st) :
    ∃ st', fsSave noFsFail st a u s f part version =
        (st', .ok (fsNextVersion es version)) ∧
      GoodFs (buildDir a u s f)
        (⟨fsNextVersion es version, part.payload, part.contentType⟩ ::
          es.filter (fun e => e.ver ≠ fsNextVersion es version)) extra st' := by
  obtain ⟨hperm, hextra, hdir, hnosub⟩ := hgood
  have hvers := fsVersions_good hval ⟨hperm, hextra, hdir, hnosub⟩
    (show buildDir a u s f ∉ noFsFail.readDirFails by simp [noFsFail])
  have hnextv :
      (if version > 0 then version
       else
        match fsVersions noFsFail st a u s f with
        | .ok vs => if vs ≠ [] then slicesMax vs + 1 else 1
        | .error _ => 1) = fsNextVersion es version := by
    rw [fsNextVersion, hvers]
    by_cases hv : version > 0
    · rw [if_pos hv, if_pos hv]
    · rw [if_neg hv, if_neg hv]
      by_cases hes : es = []
      · rw [if_pos hes, if_pos hes]
      · rw [if_neg hes, if_neg hes]
        simp only []
        have hne : List.insertionSort (· ≤ ·) (vers es) ≠ [] := by
          intro hc
          apply hes
          have hlen := congrArg List.length hc
          rw [List.length_insertionSort] at hlen
          rw [vers] at hlen
          simpa using hlen
        rw [if_pos hne]
        rw [slicesMax_perm (List.perm_insertionSort _ (vers es))]
  rw [fsSave, if_neg (by simp [hval]), hnextv]
  simp only [writeFile_noFail, mkdirAll]
  refine ⟨_, rfl, ?_, hextra, ?_, ?_⟩
  · have hkeep : removeF
        ((buildDir a u s f ++ [intStr (fsNextVersion es version)], part.payload) ::
          removeF st.files (buildDir a u s f ++ [intStr (fsNextVersion es version)]))
        (buildDir a u s f ++ [intStr (fsNextVersion es version) ++ ".meta"]) =
        (buildDir a u s f ++ [intStr (fsNextVersion es version)], part.payload) ::
          removeF (removeF st.files (buildDir a u s f ++ [intStr (fsNextVersion es version)]))
            (buildDir a u s f ++ [intStr (fsNextVersion es version) ++ ".meta"]) := by
      have f5 := payload_meta_path_ne (buildDir a u s f)
        (fsNextVersion es version) (fsNextVersion es version)
      rw [removeF, List.filter_cons, if_pos (by simp [f5])]
      rfl
    show ((buildDir a u s f ++ [intStr (fsNextVersion es version) ++ ".meta"],
        encodeStr part.contentType) ::
      removeF ((buildDir a u s f ++ [intStr (fsNextVersion es version)], part.payload) ::
        removeF st.files (buildDir a u s f ++ [intStr (fsNextVersion es version)]))
        (buildDir a u s f ++ [intStr (fsNextVersion es version) ++ ".meta"])).Perm _
    rw [hkeep]
    have hrest : (removeF (removeF st.files
        (buildDir a u s f ++ [intStr (fsNextVersion es version)]))
        (buildDir a u s f ++ [intStr (fsNextVersion es version) ++ ".meta"])).Perm
          (artFiles (buildDir a u s f)
            (es.filter (fun e => e.ver ≠ fsNextVersion es version)) ++ extra) := by
      rw [removeF, removeF]
      have h1 := (hperm.filter
        (fun e => e.1 ≠ buildDir a u s f ++ [intStr (fsNextVersion es version)])).filter
        (fun e => e.1 ≠ buildDir a u s f ++ [intStr (fsNextVersion es version) ++ ".meta"])
      have h2 := removeF_art (buildDir a u s f) es extra (fsNextVersion es version) hextra
      rw [removeF, removeF] at h2
      rw [h2] at h1
      exact h1
    rw [artFiles, List.cons_append, List.cons_append]
    refine List.Perm.trans (List.Perm.swap _ _ _) ?_
    exact (hrest.cons _).cons _
  · show buildDir a u s f ∈ (buildDir a u s f).inits ++ st.dirs
    exact List.mem_append_left _ ((List.mem_inits _ _).mpr (List.prefix_refl _))
  · intro d hd hpre
    rcases List.mem_append.mp hd with hd | hd
    · exact prefix_antisymm ((List.mem_inits _ _).mp hd) hpre
    · exact hnosub d hd hpre

theorem lookupF_art_payload {st : FState} {dir : Path} {es : List ArtEntry}
    {extra : List (Path × Bytes)} (hperm : st.files.Perm (artFiles dir es ++ extra))
    (hex : ∀ x ∈ extra, ¬ dir <+: x.1) (hnd : (vers es).Nodup)
    {e : ArtEntry} (hmem : e ∈ es) :
    lookupF st.files (dir ++ [intStr e.ver]) = some e.data := by
  apply lookupF_eq_of_mem_unique
  · exact hperm.mem_iff.mpr
      (List.mem_append_left _ (mem_artFiles_iff.mpr ⟨e, hmem, Or.inl rfl⟩))
  · intro d' hd'
    have h2 := hperm.mem_iff.mp hd'
    rcases List.mem_append.mp h2 with h3 | h3
    · rcases mem_artFiles_iff.mp h3 with ⟨e', he', h4 | h4⟩
      · injection h4 with h5 h5s
        have h6 : e.ver = e'.ver := payload_path_inj h5
        have h7 : e = e' := List.inj_on_of_nodup_map hnd hmem he' h6
        rw [h5s, ← h7]
      · injection h4 with h5 h5s
        exact absurd h5 (payload_meta_path_ne dir e.ver e'.ver)
    · exact absurd (List.prefix_append dir [intStr e.ver])
        (hex _ h3)

theorem lookupF_art_meta {st : FState} {dir : Path} {es : List ArtEntry}
    {extra : List (Path × Bytes)} (hperm : st.files.Perm (artFiles dir es ++ extra))
    (hex : ∀ x ∈ extra, ¬ dir <+: x.1) (hnd : (vers es).Nodup)
    {e : ArtEntry} (hmem : e ∈ es) :
    lookupF st.files (dir ++ [intStr e.ver ++ ".meta"]) = some (encodeStr e.ct) := by
  apply lookupF_eq_of_mem_unique
  · exact hperm.mem_iff.mpr
      (List.mem_append_left _ (mem_artFiles_iff.mpr ⟨e, hmem, Or.inr rfl⟩))
  · intro d' hd'
    have h2 := hperm.mem_iff.mp hd'
    rcases List.mem_append.mp h2 with h3 | h3
    · rcases mem_artFiles_iff.mp h3 with ⟨e', he', h4 | h4⟩
      · injection h4 with h5 h5s
        exact absurd h5.symm (payload_meta_path_ne dir e'.ver e.ver)
      · injection h4 with h5 h5s
        have h6 : e.ver = e'.ver := meta_path_inj h5
        have h7 : e = e' := List.inj_on_of_nodup_map hnd hmem he' h6
        rw [h5s, ← h7]
    · exact absurd (List.prefix_append dir [intStr e.ver ++ ".meta"])
        (hex _ h3)

theorem fsLoad_good {st : FState} {a u s f : String} {es : List ArtEntry}
    {extra : List (Path × Bytes)} {e : ArtEntry}
    (hval : validFields a u s f = true)
    (hgood : GoodFs (buildDir a u s f) es extra st)
    (hnd : (vers es).Nodup) (hmem : e ∈ es) (hne : e.ver ≠ 0) :
    fsLoad noFsFail st a u s f e.ver = .ok (e.data, e.ct) := by
  obtain ⟨hperm, hextra, hdir, hnosub⟩ := hgood
  have h1 : readFile noFsFail st (buildPath a u s f e.ver) = .ok e.data := by
    rw [buildPath, readFile, lookupF_art_payload hperm hextra hnd hmem]
    simp only []
    rw [if_neg (by simp [noFsFail])]
  have h2 : readFile noFsFail st (buildMetaPath a u s f e.ver) =
      .ok (encodeStr e.ct) := by
    rw [buildMetaPath, readFile, lookupF_art_meta hperm hextra hnd hmem]
    simp only []
    rw [if_neg (by simp [noFsFail])]
  rw [fsLoad, if_neg (by simp [hval])]
  simp only [if_neg hne, h1, h2]
  rw [decodeStr_encodeStr]

theorem fsDelete_ver_good {st : FState} {a u s f : String} {es : List ArtEntry}
    {extra : List (Path × Bytes)} (V : Int)
    (hval : validFields a u s f = true)
    (hgood : GoodFs (buildDir a u s f) es extra st) (hV : V ≠ 0) :
    ∃ st', fsDelete noFsFail st a u s f V = (st', none) ∧
      GoodFs (buildDir a u s f) (es.filter (fun e => e.ver ≠ V)) extra st' := by
  obtain ⟨hperm, hextra, hdir, hnosub⟩ := hgood
  rw [fsDelete, if_neg (by simp [hval]), if_pos hV]
  obtain ⟨hf1, hd1, he1⟩ := removeFile_char st (buildPath a u s f V)
  obtain ⟨hf2, hd2, he2⟩ := removeFile_char (removeFile st (buildPath a u s f V)).1
    (buildMetaPath a u s f V)
  have hgood' : GoodFs (buildDir a u s f) (es.filter (fun e => e.ver ≠ V)) extra
      (removeFile (removeFile st (buildPath a u s f V)).1 (buildMetaPath a u s f V)).1 := by
    refine ⟨?_, hextra, ?_, ?_⟩
    · rw [hf2, hf1, buildPath, buildMetaPath, removeF, removeF]
      have h1 := (hperm.filter (fun x => x.1 ≠ buildDir a u s f ++ [intStr V])).filter
        (fun x => x.1 ≠ buildDir a u s f ++ [intStr V ++ ".meta"])
      have h2 := removeF_art (buildDir a u s f) es extra V hextra
      rw [removeF, removeF] at h2
      rw [h2] at h1
      exact h1
    · rw [hd2, hd1]
      exact hdir
    · rw [hd2, hd1]
      exact hnosub
  simp only []
  rcases he1 with he1 | he1
  · rw [he1]
    exact ⟨_, rfl, hgood'⟩
  · rw [he1]
    exact ⟨_, rfl, hgood'⟩

theorem fsDelete_all_good {st : FState} {a u s f : String} {es : List ArtEntry}
    {extra : List (Path × Bytes)}
    (hval : validFields a u s f = true)
    (_hgood : GoodFs (buildDir a u s f) es extra st) :
    ∃ st', fsDelete noFsFail st a u s f 0 = (st', none) ∧
      NoArtFs (buildDir a u s f) st' := by
  rw [fsDelete, if_neg (by simp [hval]), if_neg (by simp)]
  refine ⟨_, rfl, ?_, ?_⟩
  · intro e he
    have h1 := List.mem_filter.mp he
    simpa using h1.2
  · intro hc
    have h1 := List.mem_filter.mp hc
    simp at h1

theorem fsVersions_noArt {st : FState} {a u s f : String}
    (hval : validFields a u s f = true)
    (hno : NoArtFs (buildDir a u s f) st) :
    fsVersions noFsFail st a u s f = .error .notFoundErr := by
  rw [fsVersions, if_neg (by simp [hval])]
  rw [readDir, if_neg (by simp [noFsFail]), if_neg hno.2]

theorem fsLoad_noArt {st : FState} {a u s f : String}
    (hval : validFields a u s f = true)
    (hno : NoArtFs (buildDir a u s f) st) (w : Int) :
    fsLoad noFsFail st a u s f w = .error .notFoundErr := by
  rw [fsLoad, if_neg (by simp [hval])]
  by_cases hw : w = 0
  · subst hw
    rw [if_pos rfl, fsVersions_noArt hval hno]
  · simp only [if_neg hw]
    have h1 : readFile noFsFail st (buildPath a u s f w) = .error .notFoundErr := by
      rw [readFile, lookupF_eq_none]
      intro x hx hc
      exact hno.1 x hx (by rw [hc, buildPath]; exact List.prefix_append _ _)
    rw [h1]

/-- The version number an object-store `Save` assigns on a reachable
bucket (the request's explicit version plays no role). -/
def s3NextVersion (es : List ArtEntry) : Int :=
  if es = [] then 1 else slicesMax (vers es) + 1

theorem lookupK_art {b : Bucket} {p : Key} {es : List ArtEntry}
    {extra : Bucket} (hperm : b.Perm (artObjs p es ++ extra))
    (hex : ∀ x ∈ extra, ¬ p <+: x.1) (hnd : (vers es).Nodup)
    {e : ArtEntry} (hmem : e ∈ es) :
    lookupK b (p ++ [intStr e.ver]) = some ⟨e.data, e.ct⟩ := by
  apply lookupK_eq_of_mem_unique
  · exact hperm.mem_iff.mpr
      (List.mem_append_left _ (mem_artObjs_iff.mpr ⟨e, hmem, rfl⟩))
  · intro o' ho'
    have h2 := hperm.mem_iff.mp ho'
    rcases List.mem_append.mp h2 with h3 | h3
    · rcases mem_artObjs_iff.mp h3 with ⟨e', he', h4⟩
      injection h4 with h5 h5s
      have h6 : e.ver = e'.ver := payload_path_inj h5
      have h7 : e = e' := List.inj_on_of_nodup_map hnd hmem he' h6
      rw [h5s, ← h7]
    · exact absurd (List.prefix_append p [intStr e.ver]) (hex _ h3)

theorem s3Save_good {b : Bucket} {a u s f : String} {es : List ArtEntry}
    {extra : Bucket} (part : Part) (version : Int)
    (hval : validFields a u s f = true)
    (hgood : GoodS3 (buildKeyPre a u s f) es extra b) :
    ∃ b', s3Save noS3Fail b a u s f part version = (b', .ok (s3NextVersion es)) ∧
      GoodS3 (buildKeyPre a u s f)
        (⟨s3NextVersion es, part.payload, part.contentType⟩ ::
          es.filter (fun e => e.ver ≠ s3NextVersion es)) extra b' := by
  obtain ⟨hperm, hextra⟩ := hgood
  obtain ⟨vs, hvs, hvsperm⟩ := s3VersionsI_good hval ⟨hperm, hextra⟩
    (show buildKeyPre a u s f ∉ noS3Fail.listFails by simp [noS3Fail])
  rw [s3Save, if_neg (by simp [hval]), hvs]
  simp only []
  have hnextv : (if vs.length > 0 then slicesMax vs + 1 else 1) = s3NextVersion es := by
    rw [s3NextVersion]
    by_cases hes : es = []
    · subst hes
      have : vs = [] := by simpa [vers] using hvsperm.eq_nil
      rw [this, if_pos rfl]
      simp
    · have hlen : vs.length > 0 := by
        have h1 := hvsperm.length_eq
        rw [vers, List.length_map] at h1
        rw [h1]
        exact List.length_pos.mpr hes
      rw [if_pos hlen, if_neg hes, slicesMax_perm hvsperm]
  rw [hnextv]
  refine ⟨_, rfl, ?_, hextra⟩
  show ((buildKey a u s f (s3NextVersion es),
      ⟨part.payload, part.contentType⟩) ::
    b.filter (fun x => x.1 ≠ buildKey a u s f (s3NextVersion es))).Perm _
  have h1 := hperm.filter (fun x => x.1 ≠ buildKey a u s f (s3NextVersion es))
  rw [show buildKey a u s f (s3NextVersion es) =
      buildKeyPre a u s f ++ [intStr (s3NextVersion es)] from rfl] at h1 ⊢
  rw [filter_ne_artObjs _ _ _ _ hextra] at h1
  rw [artObjs]
  exact h1.cons _

theorem s3Load_good {b : Bucket} {a u s f : String} {es : List ArtEntry}
    {extra : Bucket} {e : ArtEntry}
    (hval : validFields a u s f = true)
    (hgood : GoodS3 (buildKeyPre a u s f) es extra b)
    (hnd : (vers es).Nodup) (hmem : e ∈ es) (hne : e.ver ≠ 0) :
    s3Load noS3Fail b a u s f e.ver = .ok (e.data, e.ct) := by
  obtain ⟨hperm, hextra⟩ := hgood
  rw [s3Load, if_neg (by simp [hval])]
  simp only [if_neg hne]
  rw [show buildKey a u s f e.ver = buildKeyPre a u s f ++ [intStr e.ver] from rfl,
    lookupK_art hperm hextra hnd hmem]

theorem s3Delete_ver_good {b : Bucket} {a u s f : String} {es : List ArtEntry}
    {extra : Bucket} (V : Int)
    (hval : validFields a u s f = true)
    (hgood : GoodS3 (buildKeyPre a u s f) es extra b) (hV : V ≠ 0) :
    ∃ b', s3Delete noS3Fail b a u s f V = (b', none) ∧
      GoodS3 (buildKeyPre a u s f) (es.filter (fun e => e.ver ≠ V)) extra b' := by
  obtain ⟨hperm, hextra⟩ := hgood
  rw [s3Delete, if_neg (by simp [hval]), if_pos hV]
  refine ⟨_, rfl, ?_, hextra⟩
  have h1 := hperm.filter (fun x => x.1 ≠ buildKey a u s f V)
  rw [show buildKey a u s f V = buildKeyPre a u s f ++ [intStr V] from rfl] at h1
  rw [filter_ne_artObjs _ _ _ _ hextra] at h1
  exact h1

theorem mem_s3_fold {a u s f : String} (vs : List Int) (b : Bucket) :
    ∀ x ∈ vs.foldl
      (fun acc v => acc.filter (fun e => e.1 ≠ buildKey a u s f v)) b,
      x ∈ b ∧ ∀ v ∈ vs, x.1 ≠ buildKey a u s f v := by
  induction vs generalizing b with
  | nil =>
    intro x hx
    exact ⟨hx, by simp⟩
  | cons v rest ih =>
    intro x hx
    rw [List.foldl_cons] at hx
    obtain ⟨hx1, hx2⟩ := ih _ x hx
    have hx3 := List.mem_filter.mp hx1
    refine ⟨hx3.1, ?_⟩
    intro w hw
    rcases List.mem_cons.mp hw with hw | hw
    · subst hw
      simpa using hx3.2
    · exact hx2 w hw

theorem s3Delete_all_good {b : Bucket} {a u s f : String} {es : List ArtEntry}
    {extra : Bucket}
    (hval : validFields a u s f = true)
    (hgood : GoodS3 (buildKeyPre a u s f) es extra b) :
    ∃ b', s3Delete noS3Fail b a u s f 0 = (b', none) ∧
      NoArtS3 (buildKeyPre a u s f) b' := by
  obtain ⟨hperm, hextra⟩ := hgood
  obtain ⟨vs, hvs, hvsperm⟩ := s3VersionsI_good hval ⟨hperm, hextra⟩
    (show buildKeyPre a u s f ∉ noS3Fail.listFails by simp [noS3Fail])
  rw [s3Delete, if_neg (by simp [hval]), if_neg (by simp), hvs]
  refine ⟨_, rfl, ?_⟩
  intro x hx
  obtain ⟨hxb, hxk⟩ := mem_s3_fold vs b x hx
  have h2 := hperm.mem_iff.mp hxb
  rcases List.mem_append.mp h2 with h3 | h3
  · rcases mem_artObjs_iff.mp h3 with ⟨e, he, h4⟩
    have hv : e.ver ∈ vs := hvsperm.mem_iff.mpr (List.mem_map.mpr ⟨e, he, rfl⟩)
    have h5 := hxk e.ver hv
    rw [h4] at h5
    exact (h5 rfl).elim
  · exact hextra x h3

theorem s3VersionsI_noArt {b : Bucket} {a u s f : String}
    (hval : validFields a u s f = true)
    (hno : NoArtS3 (buildKeyPre a u s f) b) :
    s3VersionsI noS3Fail b a u s f = .ok [] := by
  rw [s3VersionsI, if_neg (by simp [hval])]
  rw [s3List, if_neg (by simp [noS3Fail])]
  simp only []
  have h2 : (b.map (fun e => e.1)).filter
      (fun k => (buildKeyPre a u s f).isPrefixOf k) = [] := by
    rw [List.filter_eq_nil_iff]
    intro k hk
    rcases List.mem_map.mp hk with ⟨x, hx, hkx⟩
    subst hkx
    simp only [List.isPrefixOf_iff_prefix]
    exact fun hc => hno x hx (by simpa using hc)
  rw [h2]
  rfl

theorem s3Versions_noArt {b : Bucket} {a u s f : String}
    (hval : validFields a u s f = true)
    (hno : NoArtS3 (buildKeyPre a u s f) b) :
    s3Versions noS3Fail b a u s f = .error .notFoundErr := by
  rw [s3Versions, s3VersionsI_noArt hval hno]
  rfl

theorem s3Load_noArt {b : Bucket} {a u s f : String}
    (hval : validFields a u s f = true)
    (hno : NoArtS3 (buildKeyPre a u s f) b) (w : Int) :
    s3Load noS3Fail b a u s f w = .error .notFoundErr := by
  rw [s3Load, if_neg (by simp [hval])]
  by_cases hw : w = 0
  · subst hw
    rw [if_pos rfl, s3VersionsI_noArt hval hno]
    rfl
  · simp only [if_neg hw]
    have h4 : lookupK b (buildKey a u s f w) = none := by
      apply lookupK_eq_none
      intro x hx hc
      exact hno x hx (by rw [hc]; exact List.prefix_append _ _)
    rw [h4]

/-! ## The rendered address strings

The location builders render to strings: `filepath.Join` for the
filesystem backend and `fmt.Sprintf` with `/` separators for the object
store.  `fmt.Sprintf` concatenates its arguments literally, so the object
key is the plain `/`-join `joinSegs` of the segment list.  `filepath.Join`
additionally runs `filepath.Clean` over the joined string: empty and `"."`
elements vanish and `".."` cancels the element before it.  `Clean` is
modelled here at the level of path elements (`cleanSegs`): each argument
of the Go call is one element, and on separator-free arguments — the
domain of the address-scheme claims — this coincides with Go's
string-level `Clean`, which splits on the same separator the join
inserted.  `rootDir` is likewise treated as a single path element. -/

/-- The `/`-join of a segment list. -/
def joinSegs : List String → String
  | [] => ""
  | [x] => x
  | x :: y :: rest => x ++ "/" ++ joinSegs (y :: rest)

/-- A storage-safe identifier: free of the path separator. -/
def slashFree (x : String) : Prop := '/' ∉ x.data

instance : DecidablePred slashFree := fun x =>
  inferInstanceAs (Decidable ('/' ∉ x.data))

/-- A plain path element: non-empty, not a dot element, and free of the
path separator.  `filepath.Clean` passes such elements through untouched,
so `filepath.Join` and `fmt.Sprintf` render them identically. -/
def plainSeg (x : String) : Prop :=
  x ≠ "" ∧ x ≠ "." ∧ x ≠ ".." ∧ slashFree x

instance : DecidablePred plainSeg := fun x =>
  inferInstanceAs (Decidable (x ≠ "" ∧ x ≠ "." ∧ x ≠ ".." ∧ slashFree x))

/-- The effect of a `".."` element on the (reversed) output elements of
`filepath.Clean`: it cancels the preceding element unless there is none or
it is itself `".."` (in a relative path the leading `".."` elements
survive, and a `".."` can only follow other `".."` elements in the
output). -/
def dotdotStep : List String → List String
  | [] => [".."]
  | t :: acc' => if t = ".." then ".." :: t :: acc' else acc'

/-- One pass of `filepath.Clean` over the elements of a relative path,
left to right, with `acc` holding the output elements in reverse: empty
and `"."` elements vanish, `".."` acts by `dotdotStep`. -/
def cleanSegsAux : List String → List String → List String
  | acc, [] => acc.reverse
  | acc, x :: rest =>
    if x = "" ∨ x = "." then cleanSegsAux acc rest
    else if x = ".." then cleanSegsAux (dotdotStep acc) rest
    else cleanSegsAux (x :: acc) rest

/-- `filepath.Clean` of a relative path given by its elements; a path
whose elements all vanish cleans to `"."`. -/
def cleanSegs (l : List String) : List String :=
  match cleanSegsAux [] l with
  | [] => ["."]
  | r => r

/-- `filepath.Join` on a list of path elements: with no non-empty
argument the result is the empty string, otherwise the `/`-join of the
arguments from the first non-empty one, Cleaned (joining from the first
non-empty argument and dropping later empty elements agree, since `Clean`
erases empty elements everywhere). -/
def goJoin (l : List String) : String :=
  if l.all (· = "") then "" else joinSegs (cleanSegs l)

/-- The rendered `fsService.buildPath` string
`filepath.Join(rootDir, app, user, scope, fileName, "%d")`. -/
def buildPathStr (root appName userID sessionID fileName : String)
    (version : Int) : String :=
  goJoin (root :: buildPath appName userID sessionID fileName version)

/-- The rendered `buildKey` string `"%s/%s/%s/%s/%d"`. -/
def buildKeyStr (appName userID sessionID fileName : String) (version : Int) : String :=
  joinSegs (buildKey appName userID sessionID fileName version)

theorem slashFree_intStr (v : Int) : slashFree (intStr v) := by
  intro hc
  have h1 := mem_intStr_le v '/' hc
  have h2 : ('/').toNat = 47 := by decide
  by_cases h : v < 0
  · rw [show (intStr v).data = '-' :: natDigits (-v).toNat from by simp [intStr, h]] at hc
    rcases List.mem_cons.mp hc with h3 | h3
    · exact absurd h3 (by decide)
    · have := (mem_natDigits_isDigit h3).1
      omega
  · rw [show (intStr v).data = natDigits v.toNat from by simp [intStr, h, natStr]] at hc
    have := (mem_natDigits_isDigit hc).1
    omega

theorem slashFree_user : slashFree "user" := by decide

theorem plainSeg_user : plainSeg "user" := by decide

theorem not_dot_mem_intStr (v : Int) : '.' ∉ (intStr v).data := by
  intro hc
  have h2 : ('.').toNat = 46 := by decide
  by_cases h : v < 0
  · rw [show (intStr v).data = '-' :: natDigits (-v).toNat from by simp [intStr, h]] at hc
    rcases List.mem_cons.mp hc with h3 | h3
    · exact absurd h3 (by decide)
    · have := (mem_natDigits_isDigit h3).1
      omega
  · rw [show (intStr v).data = natDigits v.toNat from by simp [intStr, h, natStr]] at hc
    have := (mem_natDigits_isDigit hc).1
    omega

theorem plainSeg_intStr (v : Int) : plainSeg (intStr v) := by
  refine ⟨?_, ?_, ?_, slashFree_intStr v⟩
  · intro hc
    have hd : (intStr v).data = [] := by rw [hc]
    by_cases h : v < 0
    · rw [show (intStr v).data = '-' :: natDigits (-v).toNat from by simp [intStr, h]] at hd
      simp at hd
    · rw [show (intStr v).data = natDigits v.toNat from by simp [intStr, h, natStr]] at hd
      exact natDigits_ne_nil _ hd
  · intro hc
    exact not_dot_mem_intStr v (by rw [hc]; decide)
  · intro hc
    exact not_dot_mem_intStr v (by rw [hc]; decide)

theorem cleanSegsAux_plain : ∀ (l acc : List String), (∀ x ∈ l, plainSeg x) →
    cleanSegsAux acc l = acc.reverse ++ l := by
  intro l
  induction l with
  | nil =>
    intro acc _
    rw [cleanSegsAux, List.append_nil]
  | cons x rest ih =>
    intro acc h
    obtain ⟨hne, hd1, hd2, -⟩ := h x (List.mem_cons_self _ _)
    rw [cleanSegsAux, if_neg (by simp [hne, hd1]), if_neg hd2,
      ih (x :: acc) (fun y hy => h y (List.mem_cons_of_mem _ hy))]
    simp

theorem cleanSegs_plain {l : List String} (h : ∀ x ∈ l, plainSeg x)
    (hne : l ≠ []) : cleanSegs l = l := by
  rw [cleanSegs, cleanSegsAux_plain l [] h]
  simp only [List.reverse_nil, List.nil_append]

theorem goJoin_plain {l : List String} (h : ∀ x ∈ l, plainSeg x)
    (hne : l ≠ []) : goJoin l = joinSegs l := by
  have hall : ¬ (l.all (fun x => x = "") = true) := by
    intro hc
    cases l with
    | nil => exact hne rfl
    | cons x rest =>
      have h1 := (h x (List.mem_cons_self _ _)).1
      have h2 := List.all_eq_true.mp hc x (List.mem_cons_self _ _)
      exact h1 (by simpa using h2)
  rw [goJoin, if_neg hall, cleanSegs_plain h hne]

theorem append_slash_inj : ∀ {a b t u : List Char}, '/' ∉ a → '/' ∉ b →
    a ++ '/' :: t = b ++ '/' :: u → a = b ∧ t = u := by
  intro a
  induction a with
  | nil =>
    intro b t u _ hb h
    cases b with
    | nil =>
      rw [List.nil_append, List.nil_append] at h
      exact ⟨rfl, ((List.cons.injEq _ _ _ _).mp h).2⟩
    | cons c cs =>
      simp only [List.nil_append, List.cons_append] at h
      obtain ⟨h1, _⟩ := (List.cons.injEq _ _ _ _).mp h
      exact absurd (h1 ▸ List.mem_cons_self c cs) hb
  | cons c cs ih =>
    intro b t u ha hb h
    cases b with
    | nil =>
      simp only [List.cons_append, List.nil_append] at h
      obtain ⟨h1, _⟩ := (List.cons.injEq _ _ _ _).mp h
      exact absurd (h1.symm ▸ List.mem_cons_self c cs) ha
    | cons c' cs' =>
      simp only [List.cons_append] at h
      obtain ⟨h1, h2⟩ := (List.cons.injEq _ _ _ _).mp h
      obtain ⟨h3, h4⟩ := ih (fun hm => ha (List.mem_cons_of_mem _ hm))
        (fun hm => hb (List.mem_cons_of_mem _ hm)) h2
      exact ⟨by rw [h1, h3], h4⟩

theorem joinSegs_data_cons (x : String) (y : String) (rest : List String) :
    (joinSegs (x :: y :: rest)).data = x.data ++ '/' :: (joinSegs (y :: rest)).data := by
  rw [joinSegs, String.data_append, String.data_append]
  rw [List.append_assoc]
  rfl

theorem joinSegs_inj : ∀ {l₁ l₂ : List String}, l₁.length = l₂.length →
    (∀ x ∈ l₁, slashFree x) → (∀ x ∈ l₂, slashFree x) →
    joinSegs l₁ = joinSegs l₂ → l₁ = l₂ := by
  intro l₁
  induction l₁ with
  | nil =>
    intro l₂ hlen _ _ _
    cases l₂ with
    | nil => rfl
    | cons => simp at hlen
  | cons x r₁ ih =>
    intro l₂ hlen h₁ h₂ hj
    cases l₂ with
    | nil => simp at hlen
    | cons x' r₂ =>
      cases r₁ with
      | nil =>
        cases r₂ with
        | nil =>
          rw [joinSegs, joinSegs] at hj
          rw [hj]
        | cons => simp at hlen
      | cons y r₁' =>
        cases r₂ with
        | nil => simp at hlen
        | cons y' r₂' =>
          have hd := congrArg String.data hj
          rw [joinSegs_data_cons, joinSegs_data_cons] at hd
          obtain ⟨hx, hrest⟩ := append_slash_inj
            (h₁ x (List.mem_cons_self _ _)) (h₂ x' (List.mem_cons_self _ _)) hd
          have hx' : x = x' := String.ext hx
          have hr : y :: r₁' = y' :: r₂' := by
            apply ih (by simpa using hlen)
              (fun z hz => h₁ z (List.mem_cons_of_mem _ hz))
              (fun z hz => h₂ z (List.mem_cons_of_mem _ hz))
            exact String.ext hrest
          rw [hx', hr]

theorem vers_ne_nil {es : List ArtEntry} (h : es ≠ []) : vers es ≠ [] := by
  intro hc
  apply h
  rw [vers] at hc
  simpa using hc

theorem fsNextVersion_pos {es : List ArtEntry} (version : Int)
    (hpos : ∀ e ∈ es, 0 < e.ver) : 0 < fsNextVersion es version := by
  rw [fsNextVersion]
  by_cases hv : version > 0
  · rw [if_pos hv]; exact hv
  · rw [if_neg hv]
    by_cases hes : es = []
    · rw [if_pos hes]; omega
    · rw [if_neg hes]
      obtain ⟨hmem, -⟩ := slicesMax_spec (vers_ne_nil hes)
      rcases List.mem_map.mp hmem with ⟨e, he, hev⟩
      have := hpos e he
      omega

theorem s3NextVersion_pos {es : List ArtEntry}
    (hpos : ∀ e ∈ es, 0 < e.ver) : 0 < s3NextVersion es := by
  rw [s3NextVersion]
  by_cases hes : es = []
  · rw [if_pos hes]; omega
  · rw [if_neg hes]
    obtain ⟨hmem, -⟩ := slicesMax_spec (vers_ne_nil hes)
    rcases List.mem_map.mp hmem with ⟨e, he, hev⟩
    have := hpos e he
    omega

theorem vers_new_nodup {es : List ArtEntry} (v : Int) (d : Bytes) (ct : String)
    (hnd : (vers es).Nodup) :
    (vers ((⟨v, d, ct⟩ : ArtEntry) :: es.filter (fun e => e.ver ≠ v))).Nodup := by
  rw [vers_cons, vers_filter]
  refine List.Nodup.cons ?_ (hnd.filter _)
  intro hc
  have h1 := List.mem_filter.mp hc
  simp at h1

theorem vers_new_pos {es : List ArtEntry} {v : Int} (d : Bytes) (ct : String)
    (hv : 0 < v) (hpos : ∀ e ∈ es, 0 < e.ver) :
    ∀ e ∈ (⟨v, d, ct⟩ : ArtEntry) :: es.filter (fun e => e.ver ≠ v), 0 < e.ver := by
  intro e he
  rcases List.mem_cons.mp he with he | he
  · rw [he]; exact hv
  · exact hpos e (List.mem_filter.mp he).1

/-! ## The claims -/

/-- **C3.** For every valid identity and payload, performing `Save` and then
`Load` with the version returned by `Save` yields back a byte-identical
payload and the original content type (`text/plain` for text parts, the
given MIME type for inline-data parts — that is `Part.contentType`), on
either backend.  The state is any reachable state of the artifact
(duplicate-free, positive stored versions). -/
theorem C3_save_then_load_roundtrip {st : FState} {b : Bucket} {a u s f : String}
    {es : List ArtEntry} {extra : List (Path × Bytes)} {extrb : Bucket} (part : Part)
    (hval : validFields a u s f = true)
    (hnd : (vers es).Nodup) (hpos : ∀ e ∈ es, 0 < e.ver)
    (hgoodf : GoodFs (buildDir a u s f) es extra st)
    (hgoods : GoodS3 (buildKeyPre a u s f) es extrb b) :
    (∃ st' v, fsSave noFsFail st a u s f part 0 = (st', .ok v) ∧
      fsLoad noFsFail st' a u s f v = .ok (part.payload, part.contentType)) ∧
    (∃ b' v, s3Save noS3Fail b a u s f part 0 = (b', .ok v) ∧
      s3Load noS3Fail b' a u s f v = .ok (part.payload, part.contentType)) := by
  constructor
  · obtain ⟨st', hsave, hgood'⟩ := fsSave_good part 0 hval hgoodf
    refine ⟨st', _, hsave, ?_⟩
    have hv := @fsNextVersion_pos es 0 hpos
    exact fsLoad_good (e := ⟨fsNextVersion es 0, part.payload, part.contentType⟩)
      hval hgood' (vers_new_nodup _ _ _ hnd) (List.mem_cons_self _ _)
      (show fsNextVersion es 0 ≠ 0 from by omega)
  · obtain ⟨b', hsave, hgood'⟩ := s3Save_good part 0 hval hgoods
    refine ⟨b', _, hsave, ?_⟩
    have hv := @s3NextVersion_pos es hpos
    exact s3Load_good (e := ⟨s3NextVersion es, part.payload, part.contentType⟩)
      hval hgood' (vers_new_nodup _ _ _ hnd) (List.mem_cons_self _ _)
      (show s3NextVersion es ≠ 0 from by omega)

/-- Witness for C3 at a concrete fresh identity and text payload. -/
theorem C3_witness :
    (∃ st' v, fsSave noFsFail ⟨[], [["a", "u", "s", "f"]]⟩ "a" "u" "s" "f"
        ⟨none, "hi"⟩ 0 = (st', .ok v) ∧
      fsLoad noFsFail st' "a" "u" "s" "f" v =
        .ok ((⟨none, "hi"⟩ : Part).payload, (⟨none, "hi"⟩ : Part).contentType)) ∧
    (∃ b' v, s3Save noS3Fail [] "a" "u" "s" "f" ⟨none, "hi"⟩ 0 = (b', .ok v) ∧
      s3Load noS3Fail b' "a" "u" "s" "f" v =
        .ok ((⟨none, "hi"⟩ : Part).payload, (⟨none, "hi"⟩ : Part).contentType)) :=
  @C3_save_then_load_roundtrip ⟨[], [["a", "u", "s", "f"]]⟩ [] "a" "u" "s" "f"
    [] [] [] ⟨none, "hi"⟩ (by decide) (by decide)
    (by decide) ⟨by decide, by decide, by decide, by decide⟩ ⟨by decide, by decide⟩

/-- **C1** (as stated, refuted for the object-store backend): with version 1
already stored, a `Save` request carrying the explicit version 5 is answered
with version 2 — the allocator's choice — not 5, because `s3Service.Save`
never consults the request's version field.  The starting bucket is the
reachable state holding exactly version 1. -/
theorem C1_counterexample :
    GoodS3 (buildKeyPre "a" "u" "s" "f") [⟨1, [7], "text/plain"⟩] []
      [(["a", "u", "s", "f", "1"], ⟨[7], "text/plain"⟩)] ∧
    (s3Save noS3Fail [(["a", "u", "s", "f", "1"], ⟨[7], "text/plain"⟩)]
      "a" "u" "s" "f" ⟨none, "x"⟩ 5).2 = .ok 2 ∧ (2 : Int) ≠ 5 :=
  ⟨⟨by decide, by decide⟩, rfl, by decide⟩

/-- **C1** (amended): an explicit version `V > 0` bypasses the allocator and
overwrites only on the filesystem backend — `Save` answers `V` and a
subsequent `Load` of `V` returns the new payload even when `V` was already
stored.  The object-store backend ignores the request's version field: its
`Save` always answers the allocator's choice (`s3NextVersion`), whatever
explicit version `V` the request carries. -/
theorem C1_amended_explicit_version {st : FState} {b : Bucket} {a u s f : String}
    {es : List ArtEntry} {extra : List (Path × Bytes)} {extrb : Bucket}
    (part : Part) (V : Int)
    (hval : validFields a u s f = true) (hV : 0 < V)
    (hnd : (vers es).Nodup)
    (hgoodf : GoodFs (buildDir a u s f) es extra st)
    (hgoods : GoodS3 (buildKeyPre a u s f) es extrb b) :
    (∃ st', fsSave noFsFail st a u s f part V = (st', .ok V) ∧
      fsLoad noFsFail st' a u s f V = .ok (part.payload, part.contentType)) ∧
    (s3Save noS3Fail b a u s f part V).2 = .ok (s3NextVersion es) := by
  have hfv : fsNextVersion es V = V := by
    rw [fsNextVersion, if_pos hV]
  constructor
  · obtain ⟨st', hsave, hgood'⟩ := fsSave_good part V hval hgoodf
    rw [hfv] at hsave hgood'
    refine ⟨st', hsave, ?_⟩
    exact fsLoad_good (e := ⟨V, part.payload, part.contentType⟩)
      hval hgood' (vers_new_nodup _ _ _ hnd) (List.mem_cons_self _ _)
      (show V ≠ 0 from by omega)
  · obtain ⟨b', hsave, -⟩ := s3Save_good part V hval hgoods
    rw [hsave]

/-- Witness for the amended C1: version 1 stored on both backends, explicit
version 1 supplied; the filesystem save overwrites version 1 and answers 1,
the object-store save answers the allocator's 2. -/
theorem C1_witness :
    (∃ st', fsSave noFsFail
        ⟨artFiles ["a", "u", "s", "f"] [⟨1, [7], "t"⟩], [["a", "u", "s", "f"]]⟩
        "a" "u" "s" "f" ⟨none, "x"⟩ 1 = (st', .ok 1) ∧
      fsLoad noFsFail st' "a" "u" "s" "f" 1 =
        .ok ((⟨none, "x"⟩ : Part).payload, (⟨none, "x"⟩ : Part).contentType)) ∧
    (s3Save noS3Fail [(["a", "u", "s", "f", "1"], ⟨[7], "t"⟩)]
      "a" "u" "s" "f" ⟨none, "x"⟩ 1).2 =
      .ok (s3NextVersion [⟨1, [7], "t"⟩]) :=
  @C1_amended_explicit_version
    ⟨artFiles ["a", "u", "s", "f"] [⟨1, [7], "t"⟩], [["a", "u", "s", "f"]]⟩
    [(["a", "u", "s", "f", "1"], ⟨[7], "t"⟩)] "a" "u" "s" "f"
    [⟨1, [7], "t"⟩] [] [] ⟨none, "x"⟩ 1
    (by decide) (by decide) (by decide)
    ⟨by decide, by decide, by decide, by decide⟩ ⟨by decide, by decide⟩

/-- **C2** (as stated, refuted for the object-store backend): for the
reachable bucket storing exactly versions 2 and 10, the public `Versions`
answers `[10, 2]` — the keys are listed in lexicographic key order, where
`"10" < "2"`, and `s3Service.Versions` never sorts numerically — which is
not strictly ascending. -/
theorem C2_counterexample :
    GoodS3 (buildKeyPre "a" "u" "s" "f") [⟨2, [1], "t"⟩, ⟨10, [2], "t"⟩] []
      [(["a", "u", "s", "f", "2"], ⟨[1], "t"⟩),
        (["a", "u", "s", "f", "10"], ⟨[2], "t"⟩)] ∧
    s3Versions noS3Fail
      [(["a", "u", "s", "f", "2"], ⟨[1], "t"⟩),
        (["a", "u", "s", "f", "10"], ⟨[2], "t"⟩)]
      "a" "u" "s" "f" = .ok [10, 2] ∧
    ¬ (10 : Int) < 2 :=
  ⟨⟨by decide, by decide⟩, rfl, by decide⟩

/-- **C2** (amended): for every artifact identity with at least one stored
version, the filesystem `Versions` returns a non-empty, strictly ascending
(hence duplicate-free) sequence of positive integers; the object-store
`Versions` returns a non-empty, duplicate-free sequence of positive
integers — a permutation of the stored version numbers, listed in
lexicographic key order — but not necessarily numerically ascending. -/
theorem C2_amended_versions {st : FState} {b : Bucket} {a u s f : String}
    {es : List ArtEntry} {extra : List (Path × Bytes)} {extrb : Bucket}
    (hval : validFields a u s f = true) (hes : es ≠ [])
    (hnd : (vers es).Nodup) (hpos : ∀ e ∈ es, 0 < e.ver)
    (hgoodf : GoodFs (buildDir a u s f) es extra st)
    (hgoods : GoodS3 (buildKeyPre a u s f) es extrb b) :
    (∃ l, fsVersions noFsFail st a u s f = .ok l ∧ l ≠ [] ∧
      l.Pairwise (· < ·) ∧ ∀ x ∈ l, 0 < x) ∧
    (∃ vs, s3Versions noS3Fail b a u s f = .ok vs ∧ vs ≠ [] ∧
      vs.Nodup ∧ (∀ x ∈ vs, 0 < x) ∧ vs.Perm (vers es)) := by
  constructor
  · rw [fsVersions_good hval hgoodf (by simp [noFsFail]), if_neg hes]
    refine ⟨_, rfl, ?_, ?_, ?_⟩
    · intro hc
      have hlen := congrArg List.length hc
      rw [List.length_insertionSort, vers, List.length_map] at hlen
      exact hes (by simpa using hlen)
    · exact insertionSort_le_pairwise_lt hnd
    · intro x hx
      have hx2 := (List.perm_insertionSort _ (vers es)).mem_iff.mp hx
      rcases List.mem_map.mp hx2 with ⟨e, he, hev⟩
      rw [← hev]
      exact hpos e he
  · obtain ⟨-, h2⟩ := s3Versions_good hval hgoods
      (show buildKeyPre a u s f ∉ noS3Fail.listFails by simp [noS3Fail])
    obtain ⟨vs, hvs, hperm⟩ := h2 hes
    refine ⟨vs, hvs, ?_, hperm.nodup_iff.mpr hnd, ?_, hperm⟩
    · intro hc
      subst hc
      exact hes (by simpa [vers] using hperm.symm.eq_nil)
    · intro x hx
      rcases List.mem_map.mp (hperm.mem_iff.mp hx) with ⟨e, he, hev⟩
      rw [← hev]
      exact hpos e he

/-- Witness for the amended C2 at the stored version set `{2, 10}`. -/
theorem C2_witness :
    (∃ l, fsVersions noFsFail
        ⟨artFiles ["a", "u", "s", "f"] [⟨2, [1], "t"⟩, ⟨10, [2], "t"⟩],
          [["a", "u", "s", "f"]]⟩ "a" "u" "s" "f" = .ok l ∧ l ≠ [] ∧
      l.Pairwise (· < ·) ∧ ∀ x ∈ l, 0 < x) ∧
    (∃ vs, s3Versions noS3Fail
        [(["a", "u", "s", "f", "2"], ⟨[1], "t"⟩),
          (["a", "u", "s", "f", "10"], ⟨[2], "t"⟩)]
        "a" "u" "s" "f" = .ok vs ∧ vs ≠ [] ∧
      vs.Nodup ∧ (∀ x ∈ vs, 0 < x) ∧
      vs.Perm (vers [⟨2, [1], "t"⟩, ⟨10, [2], "t"⟩])) :=
  @C2_amended_versions
    ⟨artFiles ["a", "u", "s", "f"] [⟨2, [1], "t"⟩, ⟨10, [2], "t"⟩],
      [["a", "u", "s", "f"]]⟩
    [(["a", "u", "s", "f", "2"], ⟨[1], "t"⟩),
      (["a", "u", "s", "f", "10"], ⟨[2], "t"⟩)]
    "a" "u" "s" "f" [⟨2, [1], "t"⟩, ⟨10, [2], "t"⟩] [] []
    (by decide) (by decide) (by decide) (by decide)
    ⟨by decide, by decide, by decide, by decide⟩ ⟨by decide, by decide⟩

/-! ### Iterated saves (C4) -/

/-- Iterated `Save` without an explicit version on the filesystem backend,
threading the state and collecting the per-call results in order. -/
def fsSaveSeq (st : FState) (a u s f : String) :
    List Part → FState × List (Except Err Int)
  | [] => (st, [])
  | p :: ps =>
    let r := fsSave noFsFail st a u s f p 0
    let rest := fsSaveSeq r.1 a u s f ps
    (rest.1, r.2 :: rest.2)

/-- Iterated `Save` on the object-store backend. -/
def s3SaveSeq (b : Bucket) (a u s f : String) :
    List Part → Bucket × List (Except Err Int)
  | [] => (b, [])
  | p :: ps =>
    let r := s3Save noS3Fail b a u s f p 0
    let rest := s3SaveSeq r.1 a u s f ps
    (rest.1, r.2 :: rest.2)

theorem mem_rangeInts {k : Nat} {x : Int} :
    x ∈ (List.range' 1 k).map (fun i : Nat => (i : Int)) ↔ 1 ≤ x ∧ x ≤ (k : Int) := by
  constructor
  · intro hx
    rcases List.mem_map.mp hx with ⟨i, hi, rfl⟩
    rw [List.mem_range'] at hi
    obtain ⟨j, hj, rfl⟩ := hi
    constructor <;> (push_cast; omega)
  · intro hx
    refine List.mem_map.mpr ⟨x.toNat, ?_, by omega⟩
    rw [List.mem_range']
    exact ⟨x.toNat - 1, by omega, by omega⟩

theorem slicesMax_rangeInts {k : Nat} (hk : 0 < k) :
    slicesMax ((List.range' 1 k).map (fun i : Nat => (i : Int))) = (k : Int) := by
  have hne : (List.range' 1 k).map (fun i : Nat => (i : Int)) ≠ [] := by
    intro hc
    have hlen := congrArg List.length hc
    simp [List.length_range'] at hlen
    omega
  obtain ⟨hmem, hub⟩ := slicesMax_spec hne
  refine le_antisymm ?_ (hub _ (mem_rangeInts.mpr ⟨by omega, le_refl _⟩))
  exact (mem_rangeInts.mp hmem).2

theorem rangeInts_next_perm {k : Nat} {es : List ArtEntry} (d : Bytes) (ct : String)
    (hperm : (vers es).Perm ((List.range' 1 k).map (fun i : Nat => (i : Int)))) :
    (vers ((⟨(k : Int) + 1, d, ct⟩ : ArtEntry) ::
        es.filter (fun e => e.ver ≠ (k : Int) + 1))).Perm
      ((List.range' 1 (k + 1)).map (fun i : Nat => (i : Int))) := by
  have hfil : (vers es).filter (fun x => x ≠ (k : Int) + 1) = vers es := by
    rw [List.filter_eq_self]
    intro x hx
    have hx2 := (mem_rangeInts.mp (hperm.mem_iff.mp hx)).2
    simp only [decide_eq_true_eq]
    omega
  rw [vers_cons, vers_filter, hfil, List.range'_concat, List.map_append]
  refine List.Perm.trans (List.Perm.cons _ hperm) ?_
  have hcast : ((1 + 1 * k : Nat) : Int) = (k : Int) + 1 := by push_cast; ring
  rw [show (List.map (fun i : Nat => (i : Int)) [1 + 1 * k]) = [(k : Int) + 1] by
    simp [hcast]
    ring]
  exact (List.perm_append_singleton _ _).symm

theorem fsSaveSeq_good {a u s f : String} (hval : validFields a u s f = true) :
    ∀ (ps : List Part) (k : Nat) (st : FState) (es : List ArtEntry)
      (extra : List (Path × Bytes)),
      GoodFs (buildDir a u s f) es extra st →
      (vers es).Perm ((List.range' 1 k).map (fun i : Nat => (i : Int))) →
      (fsSaveSeq st a u s f ps).2 =
        (List.range' (k + 1) ps.length).map (fun i : Nat => (.ok (i : Int) : Except Err Int)) := by
  intro ps
  induction ps with
  | nil =>
    intro k st es extra _ _
    rfl
  | cons p ps ih =>
    intro k st es extra hgood hperm
    obtain ⟨st', hsave, hgood'⟩ := fsSave_good p 0 hval hgood
    have hnext : fsNextVersion es 0 = (k : Int) + 1 := by
      rw [fsNextVersion, if_neg (by omega)]
      by_cases hk : k = 0
      · subst hk
        have hes : es = [] := by
          have h2 : vers es = [] := by simpa using hperm.eq_nil
          rw [vers] at h2
          simpa using h2
        rw [if_pos hes]
        norm_num
      · have hes : es ≠ [] := by
          intro hc
          subst hc
          have h2 := hperm.symm.eq_nil
          have hlen := congrArg List.length h2
          simp [List.length_range'] at hlen
          omega
        rw [if_neg hes, slicesMax_perm hperm, slicesMax_rangeInts (by omega)]
    rw [hnext] at hsave hgood'
    have hperm' := rangeInts_next_perm p.payload p.contentType hperm
    rw [fsSaveSeq]
    simp only [hsave]
    rw [ih (k + 1) st' _ extra hgood' hperm']
    have hlen : (p :: ps).length = ps.length + 1 := rfl
    rw [hlen, List.range'_succ, List.map_cons]
    have hcast : (((k + 1 : Nat)) : Int) = (k : Int) + 1 := by push_cast; ring
    rw [hcast]

theorem s3SaveSeq_good {a u s f : String} (hval : validFields a u s f = true) :
    ∀ (ps : List Part) (k : Nat) (b : Bucket) (es : List ArtEntry) (extrb : Bucket),
      GoodS3 (buildKeyPre a u s f) es extrb b →
      (vers es).Perm ((List.range' 1 k).map (fun i : Nat => (i : Int))) →
      (s3SaveSeq b a u s f ps).2 =
        (List.range' (k + 1) ps.length).map (fun i : Nat => (.ok (i : Int) : Except Err Int)) := by
  intro ps
  induction ps with
  | nil =>
    intro k b es extrb _ _
    rfl
  | cons p ps ih =>
    intro k b es extrb hgood hperm
    obtain ⟨b', hsave, hgood'⟩ := s3Save_good p 0 hval hgood
    have hnext : s3NextVersion es = (k : Int) + 1 := by
      rw [s3NextVersion]
      by_cases hk : k = 0
      · subst hk
        have hes : es = [] := by
          have h2 : vers es = [] := by simpa using hperm.eq_nil
          rw [vers] at h2
          simpa using h2
        rw [if_pos hes]
        norm_num
      · have hes : es ≠ [] := by
          intro hc
          subst hc
          have h2 := hperm.symm.eq_nil
          have hlen := congrArg List.length h2
          simp [List.length_range'] at hlen
          omega
        rw [if_neg hes, slicesMax_perm hperm, slicesMax_rangeInts (by omega)]
    rw [hnext] at hsave hgood'
    have hperm' := rangeInts_next_perm p.payload p.contentType hperm
    rw [s3SaveSeq]
    simp only [hsave]
    rw [ih (k + 1) b' _ extrb hgood' hperm']
    have hlen : (p :: ps).length = ps.length + 1 := rfl
    rw [hlen, List.range'_succ, List.map_cons]
    have hcast : (((k + 1 : Nat)) : Int) = (k : Int) + 1 := by push_cast; ring
    rw [hcast]

/-- **C4.** For every fresh identity (no stored versions) and every sequence
of `n` payloads, calling `Save` `n` times in sequence without an explicit
version returns the versions `1, 2, ..., n` in that order, on either
backend. -/
theorem C4_sequential_saves {st : FState} {b : Bucket} {a u s f : String}
    {extra : List (Path × Bytes)} {extrb : Bucket} (ps : List Part)
    (hval : validFields a u s f = true)
    (hfreshf : GoodFs (buildDir a u s f) [] extra st)
    (hfreshs : GoodS3 (buildKeyPre a u s f) [] extrb b) :
    (fsSaveSeq st a u s f ps).2 =
      (List.range' 1 ps.length).map (fun i : Nat => (.ok (i : Int) : Except Err Int)) ∧
    (s3SaveSeq b a u s f ps).2 =
      (List.range' 1 ps.length).map (fun i : Nat => (.ok (i : Int) : Except Err Int)) := by
  constructor
  · exact fsSaveSeq_good hval ps 0 st [] extra hfreshf (by rw [vers]; simp)
  · exact s3SaveSeq_good hval ps 0 b [] extrb hfreshs (by rw [vers]; simp)

/-- Witness for C4: three saves on a fresh identity answer versions
`[1, 2, 3]` on both backends. -/
theorem C4_witness :
    (fsSaveSeq ⟨[], [["a", "u", "s", "f"]]⟩ "a" "u" "s" "f"
        [⟨none, "x"⟩, ⟨none, "y"⟩, ⟨none, "z"⟩]).2 =
      (List.range' 1 [(⟨none, "x"⟩ : Part), ⟨none, "y"⟩, ⟨none, "z"⟩].length).map
        (fun i : Nat => (.ok (i : Int) : Except Err Int)) ∧
    (s3SaveSeq [] "a" "u" "s" "f" [⟨none, "x"⟩, ⟨none, "y"⟩, ⟨none, "z"⟩]).2 =
      (List.range' 1 [(⟨none, "x"⟩ : Part), ⟨none, "y"⟩, ⟨none, "z"⟩].length).map
        (fun i : Nat => (.ok (i : Int) : Except Err Int)) :=
  @C4_sequential_saves ⟨[], [["a", "u", "s", "f"]]⟩ [] "a" "u" "s" "f"
    [] [] [⟨none, "x"⟩, ⟨none, "y"⟩, ⟨none, "z"⟩]
    (by decide) ⟨by decide, by decide, by decide, by decide⟩ ⟨by decide, by decide⟩

/-- **C5.** For every identity whose stored version set is `S` (the numbers
of `es`): `Delete` with an explicit version `V` succeeds and removes exactly
that version — a subsequent `Versions` returns the ascending sort of
`S \ {V}` (not-found when that is empty, the convention for an artifact
with no versions); `Delete` with version 0 removes every version, after
which any subsequent `Versions` or `Load` (any requested version) fails
with not-found; on either backend (the object store returns `S \ {V}` as a
permutation, see C2). -/
theorem C5_delete_semantics {st : FState} {b : Bucket} {a u s f : String}
    {es : List ArtEntry} {extra : List (Path × Bytes)} {extrb : Bucket} (V : Int)
    (hval : validFields a u s f = true) (hV : V ≠ 0)
    (hgoodf : GoodFs (buildDir a u s f) es extra st)
    (hgoods : GoodS3 (buildKeyPre a u s f) es extrb b) :
    (∃ st', fsDelete noFsFail st a u s f V = (st', none) ∧
      fsVersions noFsFail st' a u s f =
        (if (vers es).filter (fun x => x ≠ V) = [] then .error .notFoundErr
         else .ok (List.insertionSort (· ≤ ·)
           ((vers es).filter (fun x => x ≠ V))))) ∧
    (∃ st', fsDelete noFsFail st a u s f 0 = (st', none) ∧
      fsVersions noFsFail st' a u s f = .error .notFoundErr ∧
      ∀ w, fsLoad noFsFail st' a u s f w = .error .notFoundErr) ∧
    (∃ b', s3Delete noS3Fail b a u s f V = (b', none) ∧
      ((vers es).filter (fun x => x ≠ V) = [] →
        s3Versions noS3Fail b' a u s f = .error .notFoundErr) ∧
      ((vers es).filter (fun x => x ≠ V) ≠ [] →
        ∃ vs, s3Versions noS3Fail b' a u s f = .ok vs ∧
          vs.Perm ((vers es).filter (fun x => x ≠ V)))) ∧
    (∃ b', s3Delete noS3Fail b a u s f 0 = (b', none) ∧
      s3Versions noS3Fail b' a u s f = .error .notFoundErr ∧
      ∀ w, s3Load noS3Fail b' a u s f w = .error .notFoundErr) := by
  have hvf := vers_filter es V
  have hnil_iff : es.filter (fun e => e.ver ≠ V) = [] ↔
      (vers es).filter (fun x => x ≠ V) = [] := by
    rw [← hvf, vers]
    simp
  refine ⟨?_, ?_, ?_, ?_⟩
  · obtain ⟨st', hdel, hgood'⟩ := fsDelete_ver_good V hval hgoodf hV
    refine ⟨st', hdel, ?_⟩
    rw [fsVersions_good hval hgood' (by simp [noFsFail]), hvf]
    by_cases hnil : es.filter (fun e => e.ver ≠ V) = []
    · rw [if_pos hnil, if_pos (hnil_iff.mp hnil)]
    · rw [if_neg hnil, if_neg (fun hc => hnil (hnil_iff.mpr hc))]
  · obtain ⟨st', hdel, hno⟩ := fsDelete_all_good hval hgoodf
    exact ⟨st', hdel, fsVersions_noArt hval hno, fsLoad_noArt hval hno⟩
  · obtain ⟨b', hdel, hgood'⟩ := s3Delete_ver_good V hval hgoods hV
    obtain ⟨h1, h2⟩ := s3Versions_good hval hgood'
      (show buildKeyPre a u s f ∉ noS3Fail.listFails by simp [noS3Fail])
    refine ⟨b', hdel, ?_, ?_⟩
    · intro hnil
      exact h1 (hnil_iff.mpr hnil)
    · intro hnil
      obtain ⟨vs, hvs, hperm⟩ := h2 (fun hc => hnil (hnil_iff.mp hc))
      exact ⟨vs, hvs, hvf ▸ hperm⟩
  · obtain ⟨b', hdel, hno⟩ := s3Delete_all_good hval hgoods
    exact ⟨b', hdel, s3Versions_noArt hval hno, s3Load_noArt hval hno⟩

/-- Witness for C5 at the stored version set `{1, 2}` with `V = 1`. -/
theorem C5_witness :
    (∃ st', fsDelete noFsFail
        ⟨artFiles ["a", "u", "s", "f"] [⟨1, [7], "t"⟩, ⟨2, [8], "t"⟩],
          [["a", "u", "s", "f"]]⟩ "a" "u" "s" "f" 1 = (st', none) ∧
      fsVersions noFsFail st' "a" "u" "s" "f" =
        (if (vers [⟨1, [7], "t"⟩, ⟨2, [8], "t"⟩]).filter (fun x => x ≠ 1) = []
         then .error .notFoundErr
         else .ok (List.insertionSort (· ≤ ·)
           ((vers [⟨1, [7], "t"⟩, ⟨2, [8], "t"⟩]).filter (fun x => x ≠ 1))))) ∧
    (∃ st', fsDelete noFsFail
        ⟨artFiles ["a", "u", "s", "f"] [⟨1, [7], "t"⟩, ⟨2, [8], "t"⟩],
          [["a", "u", "s", "f"]]⟩ "a" "u" "s" "f" 0 = (st', none) ∧
      fsVersions noFsFail st' "a" "u" "s" "f" = .error .notFoundErr ∧
      ∀ w, fsLoad noFsFail st' "a" "u" "s" "f" w = .error .notFoundErr) ∧
    (∃ b', s3Delete noS3Fail
        [(["a", "u", "s", "f", "1"], ⟨[7], "t"⟩), (["a", "u", "s", "f", "2"], ⟨[8], "t"⟩)]
        "a" "u" "s" "f" 1 = (b', none) ∧
      ((vers [⟨1, [7], "t"⟩, ⟨2, [8], "t"⟩]).filter (fun x => x ≠ 1) = [] →
        s3Versions noS3Fail b' "a" "u" "s" "f" = .error .notFoundErr) ∧
      ((vers [⟨1, [7], "t"⟩, ⟨2, [8], "t"⟩]).filter (fun x => x ≠ 1) ≠ [] →
        ∃ vs, s3Versions noS3Fail b' "a" "u" "s" "f" = .ok vs ∧
          vs.Perm ((vers [⟨1, [7], "t"⟩, ⟨2, [8], "t"⟩]).filter (fun x => x ≠ 1)))) ∧
    (∃ b', s3Delete noS3Fail
        [(["a", "u", "s", "f", "1"], ⟨[7], "t"⟩), (["a", "u", "s", "f", "2"], ⟨[8], "t"⟩)]
        "a" "u" "s" "f" 0 = (b', none) ∧
      s3Versions noS3Fail b' "a" "u" "s" "f" = .error .notFoundErr ∧
      ∀ w, s3Load noS3Fail b' "a" "u" "s" "f" w = .error .notFoundErr) :=
  @C5_delete_semantics
    ⟨artFiles ["a", "u", "s", "f"] [⟨1, [7], "t"⟩, ⟨2, [8], "t"⟩],
      [["a", "u", "s", "f"]]⟩
    [(["a", "u", "s", "f", "1"], ⟨[7], "t"⟩),
      (["a", "u", "s", "f", "2"], ⟨[8], "t"⟩)]
    "a" "u" "s" "f" [⟨1, [7], "t"⟩, ⟨2, [8], "t"⟩] [] [] 1
    (by decide) (by decide)
    ⟨by decide, by decide, by decide, by decide⟩ ⟨by decide, by decide⟩

/-- **C6.** `Delete` never returns an error when the target is already
absent: deleting a version `V` not stored for the identity succeeds (and
leaves the artifact's contents untouched), and whole-artifact deletion of a
non-existent artifact succeeds, on either backend. -/
theorem C6_idempotent_absent_delete {st st₂ : FState} {b b₂ : Bucket}
    {a u s f : String} {es : List ArtEntry} {extra : List (Path × Bytes)}
    {extrb : Bucket} (V : Int)
    (hval : validFields a u s f = true) (hV : V ≠ 0) (habs : V ∉ vers es)
    (hgoodf : GoodFs (buildDir a u s f) es extra st)
    (hgoods : GoodS3 (buildKeyPre a u s f) es extrb b)
    (_hnof : NoArtFs (buildDir a u s f) st₂)
    (hnos : NoArtS3 (buildKeyPre a u s f) b₂) :
    (∃ st', fsDelete noFsFail st a u s f V = (st', none) ∧
      GoodFs (buildDir a u s f) es extra st') ∧
    (fsDelete noFsFail st₂ a u s f 0).2 = none ∧
    (∃ b', s3Delete noS3Fail b a u s f V = (b', none) ∧
      GoodS3 (buildKeyPre a u s f) es extrb b') ∧
    s3Delete noS3Fail b₂ a u s f 0 = (b₂, none) := by
  have hfil : es.filter (fun e => e.ver ≠ V) = es := by
    rw [List.filter_eq_self]
    intro e he
    simp only [decide_eq_true_eq]
    intro hc
    exact habs (hc ▸ List.mem_map.mpr ⟨e, he, rfl⟩)
  refine ⟨?_, ?_, ?_, ?_⟩
  · obtain ⟨st', hdel, hgood'⟩ := fsDelete_ver_good V hval hgoodf hV
    rw [hfil] at hgood'
    exact ⟨st', hdel, hgood'⟩
  · rw [fsDelete, if_neg (by simp [hval]), if_neg (by simp)]
  · obtain ⟨b', hdel, hgood'⟩ := s3Delete_ver_good V hval hgoods hV
    rw [hfil] at hgood'
    exact ⟨b', hdel, hgood'⟩
  · rw [s3Delete, if_neg (by simp [hval]), if_neg (by simp),
      s3VersionsI_noArt hval hnos]
    rfl

/-- Witness for C6: version 5 absent from the stored set `{1}`; the second
states hold no artifact at all. -/
theorem C6_witness :
    (∃ st', fsDelete noFsFail
        ⟨artFiles ["a", "u", "s", "f"] [⟨1, [7], "t"⟩], [["a", "u", "s", "f"]]⟩
        "a" "u" "s" "f" 5 = (st', none) ∧
      GoodFs (buildDir "a" "u" "s" "f") [⟨1, [7], "t"⟩] [] st') ∧
    (fsDelete noFsFail ⟨[], []⟩ "a" "u" "s" "f" 0).2 = none ∧
    (∃ b', s3Delete noS3Fail [(["a", "u", "s", "f", "1"], ⟨[7], "t"⟩)]
        "a" "u" "s" "f" 5 = (b', none) ∧
      GoodS3 (buildKeyPre "a" "u" "s" "f") [⟨1, [7], "t"⟩] [] b') ∧
    s3Delete noS3Fail [] "a" "u" "s" "f" 0 = ([], none) :=
  @C6_idempotent_absent_delete
    ⟨artFiles ["a", "u", "s", "f"] [⟨1, [7], "t"⟩], [["a", "u", "s", "f"]]⟩
    ⟨[], []⟩
    [(["a", "u", "s", "f", "1"], ⟨[7], "t"⟩)] []
    "a" "u" "s" "f" [⟨1, [7], "t"⟩] [] [] 5
    (by decide) (by decide) (by decide)
    ⟨by decide, by decide, by decide, by decide⟩ ⟨by decide, by decide⟩
    ⟨by decide, by decide⟩ (by intro x hx; simp at hx)

/-- The filesystem path below the root and the object key are built from
the same segments. -/
theorem buildPath_eq_buildKey (a u s f : String) (v : Int) :
    buildPath a u s f v = buildKey a u s f v := rfl

theorem buildKey_length (a u s f : String) (v : Int) :
    (buildKey a u s f v).length = 5 := by
  rw [buildKey, buildKeyPre]
  split <;> simp

theorem slashFree_mem_buildKey {a u s f : String} {v : Int}
    (ha : slashFree a) (hu : slashFree u) (hs : slashFree s) (hf : slashFree f) :
    ∀ x ∈ buildKey a u s f v, slashFree x := by
  intro x hx
  rw [buildKey, buildKeyPre] at hx
  by_cases h1 : fileHasUserNamespace f
  · rw [if_pos h1] at hx
    simp only [List.cons_append, List.nil_append, List.mem_cons,
      List.not_mem_nil, or_false] at hx
    rcases hx with h | h | h | h | h <;> subst h
    · exact ha
    · exact hu
    · exact slashFree_user
    · exact hf
    · exact slashFree_intStr v
  · rw [if_neg h1] at hx
    simp only [List.cons_append, List.nil_append, List.mem_cons,
      List.not_mem_nil, or_false] at hx
    rcases hx with h | h | h | h | h <;> subst h
    · exact ha
    · exact hu
    · exact hs
    · exact hf
    · exact slashFree_intStr v

theorem plain_mem_buildKey {a u s f : String} {v : Int}
    (ha : plainSeg a) (hu : plainSeg u) (hs : plainSeg s) (hf : plainSeg f) :
    ∀ x ∈ buildKey a u s f v, plainSeg x := by
  intro x hx
  rw [buildKey, buildKeyPre] at hx
  by_cases h1 : fileHasUserNamespace f
  · rw [if_pos h1] at hx
    simp only [List.cons_append, List.nil_append, List.mem_cons,
      List.not_mem_nil, or_false] at hx
    rcases hx with h | h | h | h | h <;> subst h
    · exact ha
    · exact hu
    · exact plainSeg_user
    · exact hf
    · exact plainSeg_intStr v
  · rw [if_neg h1] at hx
    simp only [List.cons_append, List.nil_append, List.mem_cons,
      List.not_mem_nil, or_false] at hx
    rcases hx with h | h | h | h | h <;> subst h
    · exact ha
    · exact hu
    · exact hs
    · exact hf
    · exact plainSeg_intStr v

theorem buildKey_eq_iff {a u s f a' u' s' f' : String} {v v' : Int} :
    buildKey a u s f v = buildKey a' u' s' f' v' ↔
      (a = a' ∧ u = u' ∧ f = f' ∧ v = v' ∧
        (fileHasUserNamespace f = true ∨ s = s')) := by
  rw [buildKey, buildKey, buildKeyPre, buildKeyPre]
  by_cases h1 : fileHasUserNamespace f
  · rw [if_pos h1]
    by_cases h2 : fileHasUserNamespace f'
    · rw [if_pos h2]
      simp [h1, intStr_injective.eq_iff]
    · rw [if_neg h2]
      have hff : f ≠ f' := fun hc => h2 (hc ▸ h1)
      simp [hff]
  · rw [if_neg h1]
    by_cases h2 : fileHasUserNamespace f'
    · rw [if_pos h2]
      have hff : f ≠ f' := fun hc => h1 (hc ▸ h2)
      simp [hff, h1]
    · rw [if_neg h2]
      simp [h1, intStr_injective.eq_iff]
      tauto

/-- **C7** (as stated, refuted): both location builders are pure functions
of their inputs, but neither is injective on the storage-safe
(separator-free) domain.  First, the two distinct identities
`(a, u, "s1", "user:f")` and `(a, u, "s2", "user:f")` — differing only in
sessionID — map to the same rendered path and the same rendered key at
version 1, because the user-scoped namespace substitutes the literal
`"user"` segment for the sessionID.  Second, on the filesystem backend
alone, the `Clean` step of `filepath.Join` makes the separator-free
fileName `".."` cancel the sessionID element, collapsing the distinct
identities `(a, u, "s1", "..")` and `(a, u, "s2", "..")` to one path while
their object-store keys stay distinct. -/
theorem C7_counterexample :
    ("s1" : String) ≠ "s2" ∧
    slashFree "root" ∧ slashFree "a" ∧ slashFree "u" ∧ slashFree "s1" ∧
    slashFree "s2" ∧ slashFree "user:f" ∧ slashFree ".." ∧
    buildPathStr "root" "a" "u" "s1" "user:f" 1 =
      buildPathStr "root" "a" "u" "s2" "user:f" 1 ∧
    buildKeyStr "a" "u" "s1" "user:f" 1 = buildKeyStr "a" "u" "s2" "user:f" 1 ∧
    buildPathStr "root" "a" "u" "s1" ".." 1 =
      buildPathStr "root" "a" "u" "s2" ".." 1 ∧
    buildKeyStr "a" "u" "s1" ".." 1 ≠ buildKeyStr "a" "u" "s2" ".." 1 :=
  ⟨by decide, by decide, by decide, by decide, by decide, by decide, by decide,
    by decide, rfl, rfl, rfl, by decide⟩

/-- **C7** (amended): for plain storage-safe inputs — path elements that
are non-empty, not `"."` or `".."`, and free of the separator, so that
`filepath.Clean` leaves them untouched — the location builders of both
backends are pure and deterministic, and their collisions are exactly
characterized: two (identity, version) pairs render to the same key
(object store) or path (filesystem, any shared root) iff they agree on
appName, userID, fileName and version, and either the fileName is
user-scoped — sessionID then plays no role — or the sessionIDs also
agree.  Outside the plain domain the `Clean` step produces further
collisions on the filesystem side only (separator-free fileName `".."`;
recorded with the counterexample). -/
theorem C7_amended_location_collisions
    {root a u s f a' u' s' f' : String} {v v' : Int}
    (hroot : plainSeg root)
    (ha : plainSeg a) (hu : plainSeg u) (hs : plainSeg s) (hf : plainSeg f)
    (ha' : plainSeg a') (hu' : plainSeg u') (hs' : plainSeg s')
    (hf' : plainSeg f') :
    (buildKeyStr a u s f v = buildKeyStr a' u' s' f' v' ↔
      (a = a' ∧ u = u' ∧ f = f' ∧ v = v' ∧
        (fileHasUserNamespace f = true ∨ s = s'))) ∧
    (buildPathStr root a u s f v = buildPathStr root a' u' s' f' v' ↔
      (a = a' ∧ u = u' ∧ f = f' ∧ v = v' ∧
        (fileHasUserNamespace f = true ∨ s = s'))) := by
  have hren : ∀ (a₁ u₁ s₁ f₁ : String) (v₁ : Int), plainSeg a₁ → plainSeg u₁ →
      plainSeg s₁ → plainSeg f₁ →
      buildPathStr root a₁ u₁ s₁ f₁ v₁ =
        joinSegs (root :: buildPath a₁ u₁ s₁ f₁ v₁) := by
    intro a₁ u₁ s₁ f₁ v₁ ha₁ hu₁ hs₁ hf₁
    rw [buildPathStr]
    apply goJoin_plain
    · intro x hx
      rcases List.mem_cons.mp hx with hx | hx
      · subst hx; exact hroot
      · exact plain_mem_buildKey ha₁ hu₁ hs₁ hf₁ x
          (buildPath_eq_buildKey a₁ u₁ s₁ f₁ v₁ ▸ hx)
    · simp
  constructor
  · constructor
    · intro h
      apply buildKey_eq_iff.mp
      exact joinSegs_inj
        (by rw [buildKey_length, buildKey_length])
        (slashFree_mem_buildKey ha.2.2.2 hu.2.2.2 hs.2.2.2 hf.2.2.2)
        (slashFree_mem_buildKey ha'.2.2.2 hu'.2.2.2 hs'.2.2.2 hf'.2.2.2) h
    · intro h
      rw [buildKeyStr, buildKeyStr, buildKey_eq_iff.mpr h]
  · rw [hren a u s f v ha hu hs hf, hren a' u' s' f' v' ha' hu' hs' hf']
    constructor
    · intro h
      apply buildKey_eq_iff.mp
      have hlists : root :: buildPath a u s f v = root :: buildPath a' u' s' f' v' := by
        apply joinSegs_inj
        · rw [List.length_cons, List.length_cons, buildPath_eq_buildKey,
            buildPath_eq_buildKey, buildKey_length, buildKey_length]
        · intro x hx
          rcases List.mem_cons.mp hx with hx | hx
          · subst hx; exact hroot.2.2.2
          · exact slashFree_mem_buildKey ha.2.2.2 hu.2.2.2 hs.2.2.2 hf.2.2.2 x
              (buildPath_eq_buildKey a u s f v ▸ hx)
        · intro x hx
          rcases List.mem_cons.mp hx with hx | hx
          · subst hx; exact hroot.2.2.2
          · exact slashFree_mem_buildKey ha'.2.2.2 hu'.2.2.2 hs'.2.2.2 hf'.2.2.2 x
              (buildPath_eq_buildKey a' u' s' f' v' ▸ hx)
        · exact h
      have h2 := (List.cons.injEq _ _ _ _).mp hlists
      rw [buildPath_eq_buildKey, buildPath_eq_buildKey] at h2
      exact h2.2
    · intro h
      rw [buildPath_eq_buildKey, buildPath_eq_buildKey, buildKey_eq_iff.mpr h]

/-- Witness for the amended C7 at concrete plain storage-safe inputs. -/
theorem C7_witness :
    ((buildKeyStr "a" "u" "s1" "f" 1 = buildKeyStr "a" "u" "s2" "f" 2 ↔
      ("a" : String) = "a" ∧ ("u" : String) = "u" ∧ ("f" : String) = "f" ∧
        (1 : Int) = 2 ∧
        (fileHasUserNamespace "f" = true ∨ ("s1" : String) = "s2")) ∧
    (buildPathStr "root" "a" "u" "s1" "f" 1 =
        buildPathStr "root" "a" "u" "s2" "f" 2 ↔
      ("a" : String) = "a" ∧ ("u" : String) = "u" ∧ ("f" : String) = "f" ∧
        (1 : Int) = 2 ∧
        (fileHasUserNamespace "f" = true ∨ ("s1" : String) = "s2"))) :=
  @C7_amended_location_collisions "root" "a" "u" "s1" "f" "a" "u" "s2" "f" 1 2
    (by decide) (by decide) (by decide) (by decide) (by decide)
    (by decide) (by decide) (by decide) (by decide)

/-- The version computation of `fsSave` on a reachable state, for any fault
environment that does not break the directory read. -/
theorem fsSave_nextv {env : FsEnv} {st : FState} {a u s f : String}
    {es : List ArtEntry} {extra : List (Path × Bytes)} (version : Int)
    (hval : validFields a u s f = true)
    (hgood : GoodFs (buildDir a u s f) es extra st)
    (hfault : buildDir a u s f ∉ env.readDirFails) :
    (if version > 0 then version
     else
      match fsVersions env st a u s f with
      | .ok vs => if vs ≠ [] then slicesMax vs + 1 else 1
      | .error _ => 1) = fsNextVersion es version := by
  rw [fsNextVersion, fsVersions_good hval hgood hfault]
  by_cases hv : version > 0
  · rw [if_pos hv, if_pos hv]
  · rw [if_neg hv, if_neg hv]
    by_cases hes : es = []
    · rw [if_pos hes, if_pos hes]
    · rw [if_neg hes, if_neg hes]
      simp only []
      have hne : List.insertionSort (· ≤ ·) (vers es) ≠ [] := by
        intro hc
        apply hes
        have hlen := congrArg List.length hc
        rw [List.length_insertionSort] at hlen
        rw [vers] at hlen
        simpa using hlen
      rw [if_pos hne]
      rw [slicesMax_perm (List.perm_insertionSort _ (vers es))]

theorem lookupF_removeF (l : List (Path × Bytes)) (p : Path) :
    lookupF (removeF l p) p = none := by
  apply lookupF_eq_none
  intro e he
  have h1 := List.mem_filter.mp he
  simpa using h1.2

/-- **C8.** On the filesystem backend, when the write of the content-type
sidecar fails during `Save`, the just-written payload file is removed
(best effort) and `Save` surfaces the I/O error: no success response is
produced while the payload exists without its sidecar. -/
theorem C8_sidecar_write_failure {st : FState} {a u s f : String}
    {es : List ArtEntry} {extra : List (Path × Bytes)} (part : Part) (version : Int)
    (hval : validFields a u s f = true)
    (hgood : GoodFs (buildDir a u s f) es extra st) :
    ∃ st', fsSave ⟨[buildMetaPath a u s f (fsNextVersion es version)], [], []⟩
        st a u s f part version = (st', .error .ioErr) ∧
      lookupF st'.files (buildPath a u s f (fsNextVersion es version)) = none := by
  have hnextv := @fsSave_nextv
    ⟨[buildMetaPath a u s f (fsNextVersion es version)], [], []⟩
    st a u s f es extra version hval hgood (by simp)
  rw [fsSave, if_neg (by simp [hval]), hnextv]
  have hw1 : writeFile ⟨[buildMetaPath a u s f (fsNextVersion es version)], [], []⟩
      (mkdirAll st (buildDir a u s f))
      (buildDir a u s f ++ [intStr (fsNextVersion es version)]) part.payload =
      .ok { mkdirAll st (buildDir a u s f) with
        files := (buildDir a u s f ++ [intStr (fsNextVersion es version)], part.payload) ::
          removeF (mkdirAll st (buildDir a u s f)).files
            (buildDir a u s f ++ [intStr (fsNextVersion es version)]) } := by
    rw [writeFile, if_neg]
    intro hc
    rcases List.mem_singleton.mp hc with h
    exact payload_meta_path_ne (buildDir a u s f) (fsNextVersion es version)
      (fsNextVersion es version) h
  have hw2 : ∀ st₁ : FState,
      writeFile ⟨[buildMetaPath a u s f (fsNextVersion es version)], [], []⟩ st₁
        (buildDir a u s f ++ [intStr (fsNextVersion es version) ++ ".meta"])
        (encodeStr part.contentType) = .error .ioErr := by
    intro st₁
    rw [writeFile, if_pos (show buildDir a u s f ++
      [intStr (fsNextVersion es version) ++ ".meta"] ∈
        ([buildMetaPath a u s f (fsNextVersion es version)] : List Path) from
      List.mem_singleton.mpr rfl)]
  simp only [hw1, hw2]
  refine ⟨_, rfl, ?_⟩
  obtain ⟨hf, -, -⟩ := removeFile_char
    { mkdirAll st (buildDir a u s f) with
      files := (buildDir a u s f ++ [intStr (fsNextVersion es version)], part.payload) ::
        removeF (mkdirAll st (buildDir a u s f)).files
          (buildDir a u s f ++ [intStr (fsNextVersion es version)]) }
    (buildDir a u s f ++ [intStr (fsNextVersion es version)])
  rw [show buildPath a u s f (fsNextVersion es version) =
    buildDir a u s f ++ [intStr (fsNextVersion es version)] from rfl, hf]
  exact lookupF_removeF _ _

/-- Witness for C8 on a fresh identity (the sidecar of the allocated
version 1 is the failing write). -/
theorem C8_witness :
    ∃ st', fsSave ⟨[buildMetaPath "a" "u" "s" "f" (fsNextVersion [] 0)], [], []⟩
        ⟨[], [["a", "u", "s", "f"]]⟩ "a" "u" "s" "f" ⟨none, "x"⟩ 0 =
        (st', .error .ioErr) ∧
      lookupF st'.files (buildPath "a" "u" "s" "f" (fsNextVersion [] 0)) = none :=
  @C8_sidecar_write_failure ⟨[], [["a", "u", "s", "f"]]⟩ "a" "u" "s" "f"
    [] [] ⟨none, "x"⟩ 0 (by decide)
    ⟨by decide, by decide, by decide, by decide⟩

/-- **C9.** On the filesystem backend, `Load` of an existing payload whose
sidecar is missing or unreadable succeeds and returns content type
`text/plain` rather than failing. -/
theorem C9_sidecar_default {env : FsEnv} {st : FState} {a u s f : String}
    {v : Int} {d : Bytes}
    (hval : validFields a u s f = true) (hv : v ≠ 0)
    (hpay : lookupF st.files (buildPath a u s f v) = some d)
    (hpayok : buildPath a u s f v ∉ env.readFails)
    (hmeta : lookupF st.files (buildMetaPath a u s f v) = none ∨
      buildMetaPath a u s f v ∈ env.readFails) :
    fsLoad env st a u s f v = .ok (d, "text/plain") := by
  rw [fsLoad, if_neg (by simp [hval])]
  simp only [if_neg hv]
  have h1 : readFile env st (buildPath a u s f v) = .ok d := by
    rw [readFile, hpay]
    simp only [if_neg hpayok]
  have h2 : ∃ e, readFile env st (buildMetaPath a u s f v) = .error e := by
    rw [readFile]
    rcases hmeta with hm | hm
    · rw [hm]
      exact ⟨.notFoundErr, rfl⟩
    · cases hl : lookupF st.files (buildMetaPath a u s f v) with
      | none => exact ⟨.notFoundErr, rfl⟩
      | some md =>
        simp only [if_pos hm]
        exact ⟨.ioErr, rfl⟩
  obtain ⟨e, h2⟩ := h2
  simp only [h1, h2]

/-- Witness for C9: payload of version 1 present, no sidecar stored. -/
theorem C9_witness :
    validFields "a" "u" "s" "f" = true ∧
    fsLoad noFsFail ⟨[(["a", "u", "s", "f", "1"], [9])], [["a", "u", "s", "f"]]⟩
      "a" "u" "s" "f" 1 = .ok ([9], "text/plain") :=
  ⟨by decide,
    @C9_sidecar_default noFsFail
      ⟨[(["a", "u", "s", "f", "1"], [9])], [["a", "u", "s", "f"]]⟩
      "a" "u" "s" "f" 1 [9]
      (by decide) (by decide) (by decide) (by decide) (Or.inl (by decide))⟩

/-- **C10.** When `Save` runs without an explicit version and version
enumeration fails with an I/O error (not not-found), the filesystem backend
silently assigns version 1 and proceeds — overwriting the stored version 1
(present beforehand with its old payload) — while the object-store backend
aborts the `Save` with the enumeration error and leaves the bucket
unchanged. -/
theorem C10_enumeration_failure {st : FState} {b : Bucket} {a u s f : String}
    {es : List ArtEntry} {extra : List (Path × Bytes)} {e₁ : ArtEntry} (part : Part)
    (hval : validFields a u s f = true)
    (hgoodf : GoodFs (buildDir a u s f) es extra st)
    (hnd : (vers es).Nodup) (he1 : e₁ ∈ es) (hv1 : e₁.ver = 1) :
    lookupF st.files (buildPath a u s f 1) = some e₁.data ∧
    (∃ st', fsSave ⟨[], [], [buildDir a u s f]⟩ st a u s f part 0 = (st', .ok 1) ∧
      lookupF st'.files (buildPath a u s f 1) = some part.payload) ∧
    s3Save ⟨[buildKeyPre a u s f]⟩ b a u s f part 0 = (b, .error .ioErr) := by
  obtain ⟨hperm, hextra, hdir, hnosub⟩ := hgoodf
  refine ⟨?_, ?_, ?_⟩
  · have h1 := lookupF_art_payload hperm hextra hnd he1
    rw [hv1] at h1
    exact h1
  · have hvers : fsVersions ⟨[], [], [buildDir a u s f]⟩ st a u s f =
        .error .ioErr := by
      rw [fsVersions, if_neg (by simp [hval])]
      rw [readDir, if_pos (List.mem_singleton.mpr rfl)]
    rw [fsSave, if_neg (by simp [hval]), hvers]
    simp only [writeFile_noWriteFails
      (show FsEnv.writeFails ⟨[], [], [buildDir a u s f]⟩ = [] from rfl)]
    simp only [show (if (0 : Int) > 0 then (0 : Int) else 1) = 1 from by norm_num]
    refine ⟨_, rfl, ?_⟩
    rw [show buildPath a u s f 1 = buildDir a u s f ++ [intStr 1] from rfl]
    rw [lookupF, if_neg (show ¬ (buildDir a u s f ++ [intStr 1 ++ ".meta"] =
      buildDir a u s f ++ [intStr 1]) from
      fun hc => payload_meta_path_ne (buildDir a u s f) 1 1 hc.symm)]
    rw [removeF, List.filter_cons,
      if_pos (by simp [payload_meta_path_ne (buildDir a u s f) 1 1])]
    rw [lookupF, if_pos rfl]
  · rw [s3Save, if_neg (by simp [hval])]
    have hvers : s3VersionsI ⟨[buildKeyPre a u s f]⟩ b a u s f =
        .error .ioErr := by
      rw [s3VersionsI, if_neg (by simp [hval])]
      rw [s3List, if_pos (List.mem_singleton.mpr rfl)]
    rw [hvers]

/-- Witness for C10: version 1 stored with payload `[7]`; the filesystem
save under a failing directory read overwrites it with the new payload and
answers version 1, the object-store save aborts with the I/O error. -/
theorem C10_witness :
    lookupF (artFiles ["a", "u", "s", "f"] [⟨1, [7], "t"⟩])
      (buildPath "a" "u" "s" "f" 1) = some [7] ∧
    (∃ st', fsSave ⟨[], [], [buildDir "a" "u" "s" "f"]⟩
        ⟨artFiles ["a", "u", "s", "f"] [⟨1, [7], "t"⟩], [["a", "u", "s", "f"]]⟩
        "a" "u" "s" "f" ⟨none, "x"⟩ 0 = (st', .ok 1) ∧
      lookupF st'.files (buildPath "a" "u" "s" "f" 1) =
        some (⟨none, "x"⟩ : Part).payload) ∧
    s3Save ⟨[buildKeyPre "a" "u" "s" "f"]⟩ [] "a" "u" "s" "f" ⟨none, "x"⟩ 0 =
      ([], .error .ioErr) :=
  @C10_enumeration_failure
    ⟨artFiles ["a", "u", "s", "f"] [⟨1, [7], "t"⟩], [["a", "u", "s", "f"]]⟩
    [] "a" "u" "s" "f" [⟨1, [7], "t"⟩] [] ⟨1, [7], "t"⟩
    ⟨none, "x"⟩ (by decide) ⟨by decide, by decide, by decide, by decide⟩
    (by decide) (by decide) (by decide)

end Artifact
